import Mathlib

/-!
Verification of the diyepw time-series completion engine.

The definitions below are shallow embeddings of the Python source of the
diyepw package (`diyepw/create_amy_epw_file.py`,
`diyepw/analyze_noaa_isd_lite_file.py`, `diyepw/analyze_noaa_isd_lite_files.py`,
`diyepw/meteorology.py` and the older `lib/diyepw/diyepw/functions.py`).

Modelling conventions:
* pandas timestamps are integers (hours); `pd.Timedelta` steps are integers;
* a pandas cell is `Option ℚ` with `none` playing the role of NaN
  (ℚ instead of float keeps the arithmetic exact and decidable);
* a DataFrame column is an association list of (timestamp, cell) pairs in
  index order, and a DataFrame is a list of named columns;
* in-place mutation is modelled by explicit state passing; a Python `raise`
  becomes `Except.error` carrying the DataFrame state visible to the caller
  at the moment the exception propagates (in Python the caller still holds
  the partially mutated frame).
-/

namespace Diyepw

/-- A pandas cell: `none` models NaN / a missing observation. -/
abbrev Cell := Option ℚ

/-- One column of a time-indexed DataFrame: (timestamp, cell) pairs in index
order. -/
abbrev Col := List (ℤ × Cell)

/-! ## ContiguityPartitioner: `_split_list_into_contiguous_segments`

Source (`create_amy_epw_file.py`, lines 376-415):

    l = list(set(l))
    l.sort()
    segments = []
    cur_segment = []
    prev_val = None
    for val in l:
        if prev_val is not None and val - step != prev_val:
            segments.append(cur_segment)
            cur_segment = [val]
        else:
            cur_segment.append(val)
        prev_val = val
    if len(cur_segment) > 0:
        segments.append(cur_segment)
    return segments
-/

/-- The `for val in l` loop of `_split_list_into_contiguous_segments`:
`cur` is `cur_segment`, `prev` is `prev_val`, and the list of finished
segments is returned in order (segments emitted at branch time come first). -/
def goSplit (step : ℤ) : List ℤ → List ℤ → Option ℤ → List (List ℤ)
  | [], cur, _ => if cur.length > 0 then [cur] else []
  | v :: rest, cur, prev =>
    match prev with
    | some p =>
      if v - step ≠ p then
        cur :: goSplit step rest [v] (some v)
      else
        goSplit step rest (cur ++ [v]) (some v)
    | none => goSplit step rest (cur ++ [v]) (some v)

/-- Python's `l = list(set(l)); l.sort()`: deduplicate, then sort ascending. -/
def sortedDedup (l : List ℤ) : List ℤ :=
  List.insertionSort (· ≤ ·) l.dedup

/-- `_split_list_into_contiguous_segments(l, step)` from
`create_amy_epw_file.py` (identical to `split_list_into_contiguous_segments`
in `lib/diyepw/diyepw/functions.py`). -/
def split_list_into_contiguous_segments (l : List ℤ) (step : ℤ) : List (List ℤ) :=
  goSplit step (sortedDedup l) [] none

/-- The deduplicated-and-sorted working list is sorted strictly. -/
theorem sortedDedup_sorted_lt (l : List ℤ) : (sortedDedup l).Sorted (· < ·) := by
  have hs : (sortedDedup l).Sorted (· ≤ ·) :=
    List.sorted_insertionSort (· ≤ ·) l.dedup
  have hn : (sortedDedup l).Nodup :=
    ((List.perm_insertionSort (· ≤ ·) l.dedup).nodup_iff).2 (List.nodup_dedup l)
  exact hs.lt_of_le hn

/-- The deduplicated-and-sorted working list has no duplicates. -/
theorem sortedDedup_nodup (l : List ℤ) : (sortedDedup l).Nodup :=
  ((List.perm_insertionSort (· ≤ ·) l.dedup).nodup_iff).2 (List.nodup_dedup l)

/-- Membership in the working list is membership in the input. -/
theorem mem_sortedDedup {x : ℤ} {l : List ℤ} : x ∈ sortedDedup l ↔ x ∈ l := by
  unfold sortedDedup
  rw [(List.perm_insertionSort (· ≤ ·) l.dedup).mem_iff]
  exact List.mem_dedup

/-- Concatenating the segments produced by the loop recovers `cur ++ l`. -/
theorem goSplit_flatten (step : ℤ) :
    ∀ (l cur : List ℤ) (prev : Option ℤ),
      (goSplit step l cur prev).flatten = cur ++ l := by
  intro l
  induction l with
  | nil =>
    intro cur prev
    by_cases h : cur.length > 0
    · simp [goSplit, h]
    · simp only [goSplit, h, if_false]
      simp only [Nat.not_lt, Nat.le_zero, List.length_eq_zero] at h
      simp [h]
  | cons v rest ih =>
    intro cur prev
    match prev with
    | none => simp [goSplit, ih]
    | some p =>
      by_cases h : v - step ≠ p
      · simp [goSplit, h, ih]
      · simp [goSplit, h, ih]

/-- Concatenating the partition recovers the deduplicated, sorted input. -/
theorem split_flatten (l : List ℤ) (step : ℤ) :
    (split_list_into_contiguous_segments l step).flatten = sortedDedup l := by
  unfold split_list_into_contiguous_segments
  rw [goSplit_flatten]
  rfl

/-- Every segment the loop produces is nonempty and internally consecutive by
exactly `step` (two neighbours in one segment differ by exactly `step`). -/
theorem goSplit_chains (step : ℤ) :
    ∀ (l cur : List ℤ) (prev : Option ℤ),
      (match prev with
       | some p => cur.getLast? = some p
       | none => cur = []) →
      cur.Chain' (fun a b => b = a + step) →
      ∀ r ∈ goSplit step l cur prev, r ≠ [] ∧ r.Chain' (fun a b => b = a + step) := by
  intro l
  induction l with
  | nil =>
    intro cur prev hprev hchain r hr
    by_cases h : cur.length > 0
    · simp only [goSplit, h, if_true, List.mem_singleton] at hr
      subst hr
      exact ⟨by simpa [List.length_pos] using h, hchain⟩
    · simp [goSplit, h] at hr
  | cons v rest ih =>
    intro cur prev hprev hchain r hr
    match prev with
    | none =>
      have hcur : cur = [] := hprev
      subst hcur
      simp only [goSplit, List.nil_append] at hr
      exact ih [v] (some v) rfl (List.chain'_singleton v) r hr
    | some p =>
      by_cases h : v - step ≠ p
      · simp only [goSplit] at hr
        rw [if_pos h] at hr
        rcases List.mem_cons.1 hr with rfl | hr'
        · refine ⟨?_, hchain⟩
          intro hnil
          rw [hnil] at hprev
          exact Option.noConfusion hprev
        · exact ih [v] (some v) rfl (List.chain'_singleton v) r hr'
      · simp only [goSplit] at hr
        rw [if_neg h] at hr
        have hv : v = p + step := by
          push_neg at h
          omega
        have hlast : (cur ++ [v]).getLast? = some v := List.getLast?_concat cur
        have hchain' : (cur ++ [v]).Chain' (fun a b => b = a + step) := by
          rw [List.chain'_append]
          refine ⟨hchain, List.chain'_singleton v, ?_⟩
          intro x hx y hy
          simp only [List.head?_cons, Option.mem_def, Option.some.injEq] at hy
          rw [hprev] at hx
          simp only [Option.mem_def, Option.some.injEq] at hx
          subst hx; subst hy
          exact hv
        exact ih (cur ++ [v]) (some v) hlast hchain' r hr

/-- When the running segment is nonempty, the loop's first output segment
starts with the running segment's first element. -/
theorem goSplit_head (step : ℤ) :
    ∀ (l cur : List ℤ) (prev : Option ℤ), cur ≠ [] →
      ∃ r rs, goSplit step l cur prev = r :: rs ∧ r.head? = cur.head? := by
  intro l
  induction l with
  | nil =>
    intro cur prev hcur
    have h : cur.length > 0 := List.length_pos.2 hcur
    exact ⟨cur, [], by simp [goSplit, h], rfl⟩
  | cons v rest ih =>
    intro cur prev hcur
    match prev with
    | none =>
      obtain ⟨r, rs, heq, hhead⟩ := ih (cur ++ [v]) (some v) (by simp)
      refine ⟨r, rs, by simpa [goSplit] using heq, ?_⟩
      rw [hhead, List.head?_append, Option.or_of_isSome (by simpa [List.head?_isSome] using hcur)]
    | some p =>
      by_cases h : v - step ≠ p
      · refine ⟨cur, goSplit step rest [v] (some v), ?_, rfl⟩
        simp only [goSplit]
        rw [if_pos h]
      · obtain ⟨r, rs, heq, hhead⟩ := ih (cur ++ [v]) (some v) (by simp)
        refine ⟨r, rs, ?_, ?_⟩
        · simp only [goSplit]
          rw [if_neg h]
          exact heq
        rw [hhead, List.head?_append, Option.or_of_isSome (by simpa [List.head?_isSome] using hcur)]

/-- Relation between two neighbouring output segments: the boundary gap is
positive and differs from `step`. -/
def SegGap (step : ℤ) (r₁ r₂ : List ℤ) : Prop :=
  ∀ a ∈ r₁.getLast?, ∀ b ∈ r₂.head?, a < b ∧ b ≠ a + step

/-- On a strictly sorted working list, consecutive output segments are
separated by a positive boundary gap different from `step`. -/
theorem goSplit_gap_chain (step : ℤ) :
    ∀ (l cur : List ℤ) (prev : Option ℤ),
      (match prev with
       | some p => cur.getLast? = some p ∧ (p :: l).Chain' (· < ·)
       | none => cur = [] ∧ l.Chain' (· < ·)) →
      (goSplit step l cur prev).Chain' (SegGap step) := by
  intro l
  induction l with
  | nil =>
    intro cur prev _
    by_cases h : cur.length > 0 <;> simp [goSplit, h]
  | cons v rest ih =>
    intro cur prev hinv
    match prev with
    | none =>
      obtain ⟨hcur, hsort⟩ := hinv
      subst hcur
      simp only [goSplit, List.nil_append]
      exact ih [v] (some v) ⟨rfl, hsort⟩
    | some p =>
      obtain ⟨hlast, hsort⟩ := hinv
      have hpv : p < v := (List.chain'_cons.1 hsort).1
      have htail : (v :: rest).Chain' (· < ·) := (List.chain'_cons.1 hsort).2
      by_cases h : v - step ≠ p
      · simp only [goSplit]
        rw [if_pos h]
        rw [List.chain'_cons']
        constructor
        · intro seg hseg
          obtain ⟨r, rs, heq, hhead⟩ := goSplit_head step rest [v] (some v) (by simp)
          rw [heq] at hseg
          simp only [List.head?_cons, Option.mem_def, Option.some.injEq] at hseg
          subst hseg
          intro a ha b hb
          rw [hlast] at ha
          simp only [Option.mem_def, Option.some.injEq] at ha
          rw [hhead] at hb
          simp only [List.head?_cons, Option.mem_def, Option.some.injEq] at hb
          subst ha; subst hb
          exact ⟨hpv, by omega⟩
        · exact ih [v] (some v) ⟨rfl, htail⟩
      · simp only [goSplit]
        rw [if_neg h]
        exact ih (cur ++ [v]) (some v) ⟨List.getLast?_concat cur, htail⟩

/-- The concatenation of the partition has no duplicates. -/
theorem split_flatten_nodup (l : List ℤ) (s : ℤ) :
    (split_list_into_contiguous_segments l s).flatten.Nodup := by
  rw [split_flatten]
  exact sortedDedup_nodup l

/-- An element of a segment of the partition is an element of the input. -/
theorem mem_of_mem_split {l : List ℤ} {s : ℤ} {r : List ℤ} {x : ℤ}
    (hr : r ∈ split_list_into_contiguous_segments l s) (hx : x ∈ r) : x ∈ l := by
  have : x ∈ (split_list_into_contiguous_segments l s).flatten :=
    List.mem_flatten.2 ⟨r, hr, hx⟩
  rw [split_flatten] at this
  exact mem_sortedDedup.1 this

/-- Distinct segments of the partition are disjoint, and each is duplicate
free. -/
theorem split_nodup_and_disjoint (l : List ℤ) (s : ℤ) :
    (∀ r ∈ split_list_into_contiguous_segments l s, r.Nodup)
    ∧ (split_list_into_contiguous_segments l s).Pairwise List.Disjoint :=
  List.nodup_flatten.1 (split_flatten_nodup l s)

/-- C3. For every step size and every finite list of positions, the
contiguity partitioner returns runs that are (i) internally consecutive by
exactly the step, (ii') separated by positive boundary gaps different from
the step (the originally claimed "gap larger than step" fails for positions
off the step grid, see the counterexample), (iii) collectively equal, as a
set, to the deduplicated input, with no duplicates, and (iv) sorted in
increasing order once concatenated; the empty input yields an empty list. -/
theorem split_list_into_contiguous_segments_spec (l : List ℤ) (s : ℤ) :
    (∀ r ∈ split_list_into_contiguous_segments l s,
        r ≠ [] ∧ r.Chain' (fun a b => b = a + s))
    ∧ (split_list_into_contiguous_segments l s).Chain' (SegGap s)
    ∧ (∀ x, x ∈ (split_list_into_contiguous_segments l s).flatten ↔ x ∈ l.dedup)
    ∧ (split_list_into_contiguous_segments l s).flatten.Nodup
    ∧ (split_list_into_contiguous_segments l s).flatten.Sorted (· < ·)
    ∧ (l = [] → split_list_into_contiguous_segments l s = []) := by
  refine ⟨?_, ?_, ?_, split_flatten_nodup l s, ?_, ?_⟩
  · exact goSplit_chains s (sortedDedup l) [] none rfl List.chain'_nil
  · refine goSplit_gap_chain s (sortedDedup l) [] none ⟨rfl, ?_⟩
    exact (sortedDedup_sorted_lt l).chain'
  · intro x
    rw [split_flatten, mem_sortedDedup, List.mem_dedup]
  · rw [split_flatten]
    exact sortedDedup_sorted_lt l
  · intro h
    subst h
    rfl

/-- C3 counterexample. With step 3 and input positions 0 and 2, the
partitioner produces the two distinct runs [0] and [2], whose boundary gap
2 - 0 = 2 is not larger than the step 3, refuting clause (ii) of the claim
as stated. -/
theorem split_list_into_contiguous_segments_gap_cex :
    split_list_into_contiguous_segments [0, 2] 3 = [[0], [2]]
    ∧ ¬ ((2:ℤ) - 0 > 3) := by
  exact ⟨rfl, by decide⟩

/-! ## Gap-fill engine: `_handle_missing_values`

Source (`create_amy_epw_file.py`, lines 268-374). Each stage of the Python
function becomes one definition below; the per-column mutation is explicit
state passing on `Col` values. -/

/-- The timestamps of a column, in index order (`df.index`). -/
def colIndex (c : Col) : List ℤ := c.map (·.1)

/-- The cell stored at timestamp `t` (`df[col][t]`): `none` when `t` is not
in the index, `some cell` for the first row with that timestamp. -/
def lookupCell (c : Col) (t : ℤ) : Option Cell :=
  (c.find? (fun pr => pr.1 == t)).map (·.2)

/-- Label-based assignment `df[col][t] = v`: every row whose timestamp is `t`
receives the cell `v`. -/
def setCell (c : Col) (t : ℤ) (v : Cell) : Col :=
  c.map (fun pr => if pr.1 = t then (t, v) else pr)

/-- `df.index[df[col_name].isna()].tolist()`: the timestamps of the rows
whose cell is absent, in index order. -/
def missingIndices (c : Col) : List ℤ :=
  (c.filter (fun pr => pr.2.isNone)).map (·.1)

/-- The keyword arguments of `_handle_missing_values` other than the list of
missing-value markers. -/
structure FillParams where
  step : ℤ
  max_to_interpolate : ℕ
  max_to_impute : ℕ
  imputation_range : ℤ
  imputation_step : ℤ

/-- Number of iterations of the `while replacement_value_index <= index_to_impute
+ imputation_range` loop. The Python loop only terminates when
`imputation_step` is positive (every call site passes a positive Timedelta);
the count below agrees with the loop for a positive step and is 0 where the
loop would not run. -/
def windowSampleCount (p : FillParams) : ℕ :=
  if 0 < p.imputation_step ∧ 0 ≤ p.imputation_range then
    ((2 * p.imputation_range) / p.imputation_step).toNat + 1
  else 0

/-- The `j`-th candidate index visited by the imputation window loop. -/
def windowIndex (p : FillParams) (t : ℤ) (j : ℕ) : ℤ :=
  t - p.imputation_range + j * p.imputation_step

/-- `replacement_values`: the cells found at window indices present in the
index. -/
def windowSamples (p : FillParams) (c : Col) (t : ℤ) : List Cell :=
  (List.range (windowSampleCount p)).filterMap (fun j =>
    if windowIndex p t j ∈ colIndex c then lookupCell c (windowIndex p t j) else none)

/-- `pd.Series(replacement_values, dtype=np.float64).mean()`: the mean of the
valid samples, ignoring NaNs; NaN when no valid sample exists. -/
def imputeValue (p : FillParams) (c : Col) (t : ℤ) : Cell :=
  let vals := (windowSamples p c t).filterMap id
  if vals.length = 0 then none else some (vals.sum / (vals.length : ℚ))

/-- The `for index_to_impute in indices_to_impute` loop: impute every element
of the run except its first and last (`indices[1:-1]`), updating the column
in place so that later imputations see earlier ones. -/
def imputeRun (p : FillParams) (c : Col) (run : List ℤ) : Col :=
  ((run.drop 1).dropLast).foldl (fun acc t => setCell acc t (imputeValue p acc t)) c

/-- The `for indices in indices_to_replace` loop: runs no longer than
`max_to_interpolate` are skipped (deferred to the interpolation pass), longer
runs have their interior imputed. -/
def imputeColumn (p : FillParams) (c : Col) (runs : List (List ℤ)) : Col :=
  runs.foldl (fun acc run =>
    if run.length ≤ p.max_to_interpolate then acc else imputeRun p acc run) c

/-- `get_indices_to_replace`: the contiguous runs of missing timestamps of a
column. -/
def columnRuns (p : FillParams) (c : Col) : List (List ℤ) :=
  split_list_into_contiguous_segments (missingIndices c) p.step

/-- `len(max(indices_to_replace, key=len))`: the length of the longest run. -/
def maxRunLength (runs : List (List ℤ)) : ℕ :=
  runs.foldl (fun m r => max m r.length) 0

/-- The up-front normalisation pass: every cell equal to one of the
missing-value markers becomes absent (`df.loc[df[c].isin(missing_values), c]
= np.nan`; the NaN marker is covered by the `none` case). -/
def normalizeColumn (missing : List ℚ) (c : Col) : Col :=
  c.map (fun pr => (pr.1,
    match pr.2 with
    | none => none
    | some v => if v ∈ missing then none else some v))

/-- The data carried by the exception raised for an over-long missing run. -/
structure FillError where
  col : String
  seqLen : ℕ
  maxAllowed : ℕ
deriving DecidableEq

/-- A DataFrame: named columns in order. -/
abbrev DFrame := List (String × Col)

/-- The `for col_name in df` loop of `_handle_missing_values`: columns are
checked and imputed in order; the raise for an over-long run carries the
DataFrame state visible to the caller at that moment (earlier columns already
imputed, the offending and later columns untouched past normalisation). -/
def fillLoop (p : FillParams) (done : DFrame) : DFrame → Except (FillError × DFrame) DFrame
  | [] => .ok done
  | (name, c) :: rest =>
    let runs := columnRuns p c
    if runs.length = 0 then
      fillLoop p (done ++ [(name, c)]) rest
    else
      if p.max_to_impute < maxRunLength runs then
        .error (⟨name, maxRunLength runs, p.max_to_impute⟩, done ++ (name, c) :: rest)
      else
        fillLoop p (done ++ [(name, imputeColumn p c runs)]) rest

/-- Length of the leading block of absent cells. -/
def leadNones : List Cell → ℕ
  | none :: r => leadNones r + 1
  | _ => 0

/-- The first present value of a cell list, if any. -/
def firstSome? : List Cell → Option ℚ
  | [] => none
  | none :: r => firstSome? r
  | some v :: _ => some v

/-- `df.interpolate()` on one column of cells, pandas default settings:
linear in position order, leading NaNs left alone, interior NaN blocks filled
linearly between the bracketing present values, trailing NaNs forward-filled
with the last present value. -/
def interpGo (prev : Option ℚ) : List Cell → List Cell
  | [] => []
  | some v :: rest => some v :: interpGo (some v) rest
  | none :: rest =>
    match prev with
    | none => none :: interpGo none rest
    | some pv =>
      match firstSome? rest with
      | none => List.replicate (rest.length + 1) (some pv)
      | some nv =>
        let m := leadNones (none :: rest)
        ((List.range m).map (fun i : ℕ => some (pv + (nv - pv) * ((i : ℚ) + 1) / ((m : ℚ) + 1))))
          ++ interpGo (some pv) (rest.drop (m - 1))
termination_by l => l.length
decreasing_by
  all_goals simp_wf
  all_goals omega

/-- `df.interpolate(inplace=True)` on one column: indices are unchanged,
cells are interpolated in position order. -/
def interpolateColumn (c : Col) : Col :=
  List.zip (colIndex c) (interpGo none (c.map (·.2)))

/-- `_handle_missing_values(df, ...)`: normalise markers, loop over the
columns (raising for an over-long run), then interpolate whatever is still
absent. -/
def handle_missing_values (p : FillParams) (missing : List ℚ) (df : DFrame) :
    Except (FillError × DFrame) DFrame :=
  let df1 := df.map (fun nc => (nc.1, normalizeColumn missing nc.2))
  match fillLoop p [] df1 with
  | .error e => .error e
  | .ok df2 => .ok (df2.map (fun nc => (nc.1, interpolateColumn nc.2)))

/-! ### Basic cell lemmas -/

/-- Assignment at one timestamp leaves every other timestamp's cell alone. -/
theorem lookupCell_setCell_ne {t t' : ℤ} (c : Col) (v : Cell) (h : t ≠ t') :
    lookupCell (setCell c t' v) t = lookupCell c t := by
  induction c with
  | nil => rfl
  | cons pr rest ih =>
    by_cases hp : pr.1 = t'
    · have hne : ¬ (t' == t) := by simpa using (Ne.symm h)
      have hne2 : ¬ (pr.1 == t) := by simp [hp]; exact Ne.symm h
      simp only [setCell, List.map_cons, lookupCell, List.find?] at *
      rw [if_pos hp]
      simp only [hne, hne2, Bool.false_eq_true, if_false, cond_false]
      exact ih
    · simp only [setCell, List.map_cons, lookupCell, List.find?] at *
      rw [if_neg hp]
      by_cases hq : pr.1 = t
      · simp [hq]
      · have : ¬ (pr.1 == t) := by simpa using hq
        simp only [this, Bool.false_eq_true, cond_false]
        exact ih

/-- Assignment at a timestamp present in the index is observed by lookup. -/
theorem lookupCell_setCell_eq {t : ℤ} (c : Col) (v : Cell) (h : t ∈ colIndex c) :
    lookupCell (setCell c t v) t = some v := by
  induction c with
  | nil => simp [colIndex] at h
  | cons pr rest ih =>
    by_cases hp : pr.1 = t
    · simp only [setCell, List.map_cons, lookupCell, List.find?]
      rw [if_pos hp]
      simp
    · have hmem : t ∈ colIndex rest := by
        simpa [colIndex, hp, Ne.symm hp] using h
      simp only [setCell, List.map_cons, lookupCell, List.find?]
      rw [if_neg hp]
      have : ¬ (pr.1 == t) := by simpa using hp
      simp only [this, Bool.false_eq_true, cond_false]
      exact ih hmem

/-- Assignment does not change the index of a column. -/
theorem colIndex_setCell (c : Col) (t : ℤ) (v : Cell) :
    colIndex (setCell c t v) = colIndex c := by
  induction c with
  | nil => rfl
  | cons pr rest ih =>
    simp only [setCell, colIndex, List.map_cons] at *
    by_cases hp : pr.1 = t
    · rw [if_pos hp]
      simp only [hp, List.cons.injEq, true_and]
      exact ih
    · rw [if_neg hp]
      simp only [List.cons.injEq, true_and]
      exact ih

/-- Missing timestamps are timestamps. -/
theorem missingIndices_subset_colIndex (c : Col) : missingIndices c ⊆ colIndex c := by
  intro t ht
  simp only [missingIndices, List.mem_map, List.mem_filter] at ht
  obtain ⟨pr, ⟨hmem, _⟩, heq⟩ := ht
  exact List.mem_map.2 ⟨pr, hmem, heq⟩

/-- On a duplicate-free index, a missing timestamp's cell is absent. -/
theorem lookupCell_of_mem_missing {c : Col} {t : ℤ} (hk : (colIndex c).Nodup)
    (ht : t ∈ missingIndices c) : lookupCell c t = some none := by
  induction c with
  | nil => simp [missingIndices] at ht
  | cons pr rest ih =>
    have hk' : (colIndex rest).Nodup := (List.nodup_cons.1 hk).2
    have hhead : pr.1 ∉ colIndex rest := (List.nodup_cons.1 hk).1
    by_cases hp : pr.1 = t
    · -- the head row has timestamp t; by nodup, t is missing only via the head
      have hnone : pr.2 = none := by
        simp only [missingIndices, List.mem_map, List.mem_filter] at ht
        obtain ⟨qr, ⟨hqmem, hq2⟩, hq1⟩ := ht
        rcases List.mem_cons.1 hqmem with rfl | hqrest
        · exact Option.isNone_iff_eq_none.1 hq2
        · exfalso
          apply hhead
          rw [hp, ← hq1]
          exact List.mem_map.2 ⟨qr, hqrest, rfl⟩
      simp [lookupCell, List.find?, hp, hnone]
    · have htrest : t ∈ missingIndices rest := by
        simp only [missingIndices, List.mem_map, List.mem_filter] at ht ⊢
        obtain ⟨qr, ⟨hqmem, hq2⟩, hq1⟩ := ht
        rcases List.mem_cons.1 hqmem with rfl | hqrest
        · exact absurd hq1 hp
        · exact ⟨qr, ⟨hqrest, hq2⟩, hq1⟩
      have : ¬ (pr.1 == t) := by simpa using hp
      simp only [lookupCell, List.find?, this, Bool.false_eq_true, cond_false]
      exact ih hk' htrest

/-! ### Monotonicity of the imputation pass

The imputation pass only ever writes to timestamps that were absent in the
column it started from, so every originally present cell keeps its value.
`Extends c₀ c` captures the states reachable from `c₀`. -/

/-- The column `c` has the same index as `c₀` and agrees with it on every
originally present cell. -/
def Extends (c₀ c : Col) : Prop :=
  colIndex c = colIndex c₀
  ∧ ∀ t v, lookupCell c₀ t = some (some v) → lookupCell c t = some (some v)

theorem Extends.refl (c : Col) : Extends c c := ⟨rfl, fun _ _ h => h⟩

/-- Writing to an originally absent timestamp preserves `Extends`. -/
theorem Extends.setCell {c₀ c : Col} {t : ℤ} (h : Extends c₀ c)
    (ht : lookupCell c₀ t = some none) (v : Cell) : Extends c₀ (setCell c t v) := by
  refine ⟨by rw [colIndex_setCell]; exact h.1, ?_⟩
  intro t' v' hv'
  have hne : t' ≠ t := by
    intro he
    rw [he, ht] at hv'
    exact Option.noConfusion (Option.some.inj hv')
  rw [lookupCell_setCell_ne c v hne]
  exact h.2 t' v' hv'

/-- A valid sample for timestamp `t` in the window of `c₀` is still valid in
any extension of `c₀`. -/
theorem windowSamples_extends {p : FillParams} {c₀ c : Col} {t : ℤ}
    (h : Extends c₀ c) {v : ℚ} (hv : some v ∈ windowSamples p c₀ t) :
    some v ∈ windowSamples p c t := by
  simp only [windowSamples, List.mem_filterMap] at hv ⊢
  obtain ⟨j, hj, hval⟩ := hv
  refine ⟨j, hj, ?_⟩
  by_cases hmem : windowIndex p t j ∈ colIndex c₀
  · rw [if_pos hmem] at hval
    rw [if_pos (by rw [h.1]; exact hmem)]
    exact h.2 _ _ hval
  · rw [if_neg hmem] at hval
    exact Option.noConfusion hval

/-- A column position with at least one valid window sample. -/
def HasValidSample (p : FillParams) (c : Col) (t : ℤ) : Prop :=
  ∃ v, some v ∈ windowSamples p c t

/-- The windowed mean of a position with a valid sample is a present value. -/
theorem imputeValue_isSome {p : FillParams} {c : Col} {t : ℤ}
    (h : HasValidSample p c t) : ∃ w, imputeValue p c t = some w := by
  obtain ⟨v, hv⟩ := h
  have hmem : v ∈ (windowSamples p c t).filterMap id := by
    exact List.mem_filterMap.2 ⟨some v, hv, rfl⟩
  have hne : ((windowSamples p c t).filterMap id).length ≠ 0 := by
    intro h0
    rw [List.length_eq_zero] at h0
    rw [h0] at hmem
    exact (List.not_mem_nil v) hmem
  exact ⟨_, by simp only [imputeValue]; rw [if_neg hne]⟩

/-- The imputation loop over a list of target timestamps, as a fold
(the body of `imputeRun`). -/
theorem imputeRun_eq_fold (p : FillParams) (c : Col) (run : List ℤ) :
    imputeRun p c run
      = ((run.drop 1).dropLast).foldl (fun acc t => setCell acc t (imputeValue p acc t)) c := rfl

/-- The imputation loop leaves timestamps outside its target list alone. -/
theorem imputeFold_lookup_ne (p : FillParams) :
    ∀ (ts : List ℤ) (c : Col) (t : ℤ), t ∉ ts →
      lookupCell (ts.foldl (fun acc u => setCell acc u (imputeValue p acc u)) c) t
        = lookupCell c t := by
  intro ts
  induction ts with
  | nil => intro c t _; rfl
  | cons u ts' ih =>
    intro c t ht
    have h1 : t ∉ ts' := fun h => ht (List.mem_cons_of_mem u h)
    have h2 : t ≠ u := fun h => ht (h ▸ List.mem_cons_self u ts')
    rw [List.foldl_cons, ih _ t h1, lookupCell_setCell_ne _ _ h2]

/-- The imputation loop preserves `Extends` when all its targets were
originally absent. -/
theorem imputeFold_extends (p : FillParams) (c₀ : Col) :
    ∀ (ts : List ℤ) (c : Col), Extends c₀ c →
      (∀ u ∈ ts, lookupCell c₀ u = some none) →
      Extends c₀ (ts.foldl (fun acc u => setCell acc u (imputeValue p acc u)) c) := by
  intro ts
  induction ts with
  | nil => intro c h _; exact h
  | cons u ts' ih =>
    intro c h hmiss
    rw [List.foldl_cons]
    exact ih _ (h.setCell (hmiss u (List.mem_cons_self u ts')) _)
      (fun x hx => hmiss x (List.mem_cons_of_mem u hx))

/-- Every target of the imputation loop ends up with a present cell, provided
it had a valid window sample in the original column, was originally absent,
and is a real timestamp of the column. -/
theorem imputeFold_filled (p : FillParams) (c₀ : Col) :
    ∀ (ts : List ℤ) (c : Col), ts.Nodup → Extends c₀ c →
      (∀ u ∈ ts, u ∈ colIndex c₀ ∧ lookupCell c₀ u = some none) →
      ∀ t ∈ ts, HasValidSample p c₀ t →
        ∃ v, lookupCell (ts.foldl (fun acc u => setCell acc u (imputeValue p acc u)) c) t
          = some (some v) := by
  intro ts
  induction ts with
  | nil => intro c _ _ _ t ht; exact absurd ht (List.not_mem_nil t)
  | cons u ts' ih =>
    intro c hnd hext hprops t ht hvalid
    have hnd' : ts'.Nodup := (List.nodup_cons.1 hnd).2
    have hu : u ∉ ts' := (List.nodup_cons.1 hnd).1
    have huprops := hprops u (List.mem_cons_self u ts')
    rw [List.foldl_cons]
    rcases List.mem_cons.1 ht with rfl | ht'
    · -- t is written first; later writes target other timestamps
      obtain ⟨v, hv⟩ := hvalid
      have hvc : HasValidSample p c t := ⟨v, windowSamples_extends hext hv⟩
      obtain ⟨w, hw⟩ := imputeValue_isSome hvc
      refine ⟨w, ?_⟩
      rw [imputeFold_lookup_ne p ts' _ t hu,
        lookupCell_setCell_eq c _ (by rw [hext.1]; exact huprops.1), hw]
    · exact ih _ hnd'
        (hext.setCell huprops.2 _)
        (fun x hx => hprops x (List.mem_cons_of_mem u hx))
        t ht' hvalid

/-- The interior of a run is part of the run. -/
theorem interior_sublist (r : List ℤ) : ((r.drop 1).dropLast).Sublist r :=
  (List.dropLast_sublist (r.drop 1)).trans (List.drop_sublist 1 r)

/-- The run loop leaves a timestamp alone if it is in no imputed interior. -/
theorem imputeColumn_lookup_eq (p : FillParams) :
    ∀ (runs : List (List ℤ)) (c : Col) (t : ℤ),
      (∀ r ∈ runs, p.max_to_interpolate < r.length → t ∉ (r.drop 1).dropLast) →
      lookupCell (imputeColumn p c runs) t = lookupCell c t := by
  intro runs
  induction runs with
  | nil => intro c t _; rfl
  | cons r rest ih =>
    intro c t h
    simp only [imputeColumn, List.foldl_cons]
    by_cases hlen : r.length ≤ p.max_to_interpolate
    · rw [if_pos hlen]
      exact ih c t (fun r' hr' => h r' (List.mem_cons_of_mem r hr'))
    · rw [if_neg hlen]
      have ht : t ∉ (r.drop 1).dropLast :=
        h r (List.mem_cons_self r rest) (Nat.lt_of_not_le hlen)
      have hrest := ih (imputeRun p c r) t (fun r' hr' => h r' (List.mem_cons_of_mem r hr'))
      simp only [imputeColumn] at hrest
      rw [hrest, imputeRun_eq_fold, imputeFold_lookup_ne p _ c t ht]

/-- The run loop preserves `Extends` when every imputed interior timestamp
was originally absent. -/
theorem imputeColumn_extends (p : FillParams) (c₀ : Col) :
    ∀ (runs : List (List ℤ)) (c : Col), Extends c₀ c →
      (∀ r ∈ runs, ∀ u ∈ (r.drop 1).dropLast, lookupCell c₀ u = some none) →
      Extends c₀ (imputeColumn p c runs) := by
  intro runs
  induction runs with
  | nil => intro c h _; exact h
  | cons r rest ih =>
    intro c h hmiss
    simp only [imputeColumn, List.foldl_cons]
    by_cases hlen : r.length ≤ p.max_to_interpolate
    · rw [if_pos hlen]
      exact ih c h (fun r' hr' => hmiss r' (List.mem_cons_of_mem r hr'))
    · rw [if_neg hlen]
      refine ih _ ?_ (fun r' hr' => hmiss r' (List.mem_cons_of_mem r hr'))
      rw [imputeRun_eq_fold]
      exact imputeFold_extends p c₀ _ c h (hmiss r (List.mem_cons_self r rest))

/-- Interior timestamps of every imputed run end with a present cell
whenever they had at least one valid window sample in the original column. -/
theorem imputeColumn_filled (p : FillParams) (c₀ : Col) :
    ∀ (runs : List (List ℤ)) (c : Col), Extends c₀ c →
      (∀ r ∈ runs, r.Nodup) → runs.Pairwise List.Disjoint →
      (∀ r ∈ runs, ∀ u ∈ (r.drop 1).dropLast,
        u ∈ colIndex c₀ ∧ lookupCell c₀ u = some none) →
      ∀ r₀ ∈ runs, p.max_to_interpolate < r₀.length →
      ∀ t ∈ (r₀.drop 1).dropLast, HasValidSample p c₀ t →
        ∃ v, lookupCell (imputeColumn p c runs) t = some (some v) := by
  intro runs
  induction runs with
  | nil => intro c _ _ _ _ r₀ hr₀; exact absurd hr₀ (List.not_mem_nil r₀)
  | cons r rest ih =>
    intro c hext hnd hdisj hprops r₀ hr₀ hlong t ht hvalid
    have hndrest : ∀ r' ∈ rest, r'.Nodup := fun r' h' => hnd r' (List.mem_cons_of_mem r h')
    have hdisjrest : rest.Pairwise List.Disjoint := (List.pairwise_cons.1 hdisj).2
    have hpropsrest : ∀ r' ∈ rest, ∀ u ∈ (r'.drop 1).dropLast,
        u ∈ colIndex c₀ ∧ lookupCell c₀ u = some none :=
      fun r' h' => hprops r' (List.mem_cons_of_mem r h')
    simp only [imputeColumn, List.foldl_cons]
    rcases List.mem_cons.1 hr₀ with rfl | hr₀rest
    · -- the run containing t is processed now
      have hlen : ¬ (r₀.length ≤ p.max_to_interpolate) := Nat.not_le.2 hlong
      rw [if_neg hlen]
      obtain ⟨v, hv⟩ := imputeFold_filled p c₀ ((r₀.drop 1).dropLast) c
        ((hnd r₀ (List.mem_cons_self r₀ rest)).sublist (interior_sublist r₀))
        hext (fun u hu => hprops r₀ (List.mem_cons_self r₀ rest) u hu) t ht hvalid
      refine ⟨v, ?_⟩
      have hpres : ∀ r' ∈ rest, p.max_to_interpolate < r'.length →
          t ∉ (r'.drop 1).dropLast := by
        intro r' hr' _ htmem
        have hdisjoint : r₀.Disjoint r' := (List.pairwise_cons.1 hdisj).1 r' hr'
        exact hdisjoint ((interior_sublist r₀).subset ht)
          ((interior_sublist r').subset htmem)
      have := imputeColumn_lookup_eq p rest (imputeRun p c r₀) t hpres
      simp only [imputeColumn] at this
      rw [this, imputeRun_eq_fold]
      exact hv
    · -- the run containing t comes later
      by_cases hlen : r.length ≤ p.max_to_interpolate
      · rw [if_pos hlen]
        exact ih c hext hndrest hdisjrest hpropsrest r₀ hr₀rest hlong t ht hvalid
      · rw [if_neg hlen]
        refine ih _ ?_ hndrest hdisjrest hpropsrest r₀ hr₀rest hlong t ht hvalid
        rw [imputeRun_eq_fold]
        exact imputeFold_extends p c₀ _ c hext
          (fun u hu => (hprops r (List.mem_cons_self r rest) u hu).2)

/-- In a duplicate-free run, the first element is not an interior element. -/
theorem head_not_mem_interior {r : List ℤ} (hnd : r.Nodup) {a : ℤ}
    (ha : a ∈ r.head?) : a ∉ (r.drop 1).dropLast := by
  match r with
  | [] => exact absurd ha (by simp)
  | x :: xs =>
    have hax : a = x := Eq.symm (by simpa using ha)
    subst hax
    intro hmem
    have : a ∈ xs := (List.dropLast_sublist xs).subset (by simpa using hmem)
    exact (List.nodup_cons.1 hnd).1 this

/-- In a duplicate-free run, the last element is not an interior element. -/
theorem getLast_not_mem_interior {r : List ℤ} (hnd : r.Nodup) {a : ℤ}
    (ha : a ∈ r.getLast?) : a ∉ (r.drop 1).dropLast := by
  match r with
  | [] => exact absurd ha (by simp)
  | x :: xs =>
    match xs with
    | [] => simp
    | y :: ys =>
      intro hmem
      have hxs : (y :: ys) ≠ [] := List.cons_ne_nil y ys
      have hmem' : a ∈ (y :: ys).dropLast := by simpa using hmem
      have hlast : a = (y :: ys).getLast hxs := by
        obtain ⟨h, he⟩ := List.mem_getLast?_eq_getLast ha
        rw [he, List.getLast_cons hxs]
      have hndxs : (y :: ys).Nodup := (List.nodup_cons.1 hnd).2
      have hsplit := List.dropLast_append_getLast hxs
      rw [← hsplit] at hndxs
      have := (List.nodup_append.1 hndxs).2.2
      exact this hmem' (hlast ▸ List.mem_singleton_self _)

/-- The runs of a column are duplicate free and pairwise disjoint. -/
theorem columnRuns_nodup_disjoint (p : FillParams) (c : Col) :
    (∀ r ∈ columnRuns p c, r.Nodup) ∧ (columnRuns p c).Pairwise List.Disjoint :=
  split_nodup_and_disjoint (missingIndices c) p.step

/-- Elements of a column's runs are missing timestamps of the column. -/
theorem mem_missing_of_mem_columnRuns {p : FillParams} {c : Col} {r : List ℤ}
    {t : ℤ} (hr : r ∈ columnRuns p c) (ht : t ∈ r) : t ∈ missingIndices c :=
  mem_of_mem_split hr ht

/-- C1. Two-tier boundary policy of `_handle_missing_values`, per column:
a maximal missing run no longer than `max_to_interpolate` is left entirely
absent by the imputation pass (deferred to the final interpolation pass);
a longer run (within `max_to_impute`) has exactly its interior imputed with
the windowed mean — each interior position with a valid window sample ends
with a present value — while its first and last positions are left absent,
to be filled only by the final interpolation pass. -/
theorem handle_missing_values_boundary_policy (p : FillParams) (c : Col)
    (hk : (colIndex c).Nodup) (run : List ℤ) (hrun : run ∈ columnRuns p c) :
    (run.length ≤ p.max_to_interpolate →
      ∀ t ∈ run, lookupCell (imputeColumn p c (columnRuns p c)) t = some none)
    ∧ (p.max_to_interpolate < run.length → run.length ≤ p.max_to_impute →
      (∀ t ∈ (run.drop 1).dropLast, HasValidSample p c t →
        ∃ v, lookupCell (imputeColumn p c (columnRuns p c)) t = some (some v))
      ∧ (∀ a ∈ run.head?, lookupCell (imputeColumn p c (columnRuns p c)) a = some none)
      ∧ (∀ a ∈ run.getLast?, lookupCell (imputeColumn p c (columnRuns p c)) a = some none)) := by
  obtain ⟨hnd, hdisj⟩ := columnRuns_nodup_disjoint p c
  have hrnd : run.Nodup := hnd run hrun
  have hmissfacts : ∀ t ∈ run, t ∈ colIndex c ∧ lookupCell c t = some none := by
    intro t ht
    have hm := mem_missing_of_mem_columnRuns hrun ht
    exact ⟨missingIndices_subset_colIndex c hm, lookupCell_of_mem_missing hk hm⟩
  -- a timestamp of `run` is in no other run
  have hother : ∀ t ∈ run, ∀ r' ∈ columnRuns p c, r' ≠ run → t ∉ r' := by
    intro t ht r' hr' hne ht'
    exact (List.Pairwise.forall (fun _ _ h => h.symm) hdisj hr' hrun hne) ht' ht
  constructor
  · -- short runs: untouched by the imputation pass
    intro hshort t ht
    have hpres : ∀ r' ∈ columnRuns p c, p.max_to_interpolate < r'.length →
        t ∉ (r'.drop 1).dropLast := by
      intro r' hr' hlong htmem
      have htr' : t ∈ r' := (interior_sublist r').subset htmem
      have hne : r' ≠ run := by
        intro he
        rw [he] at hlong
        exact absurd hshort (Nat.not_le.2 hlong)
      exact hother t ht r' hr' hne htr'
    rw [imputeColumn_lookup_eq p _ c t hpres]
    exact (hmissfacts t ht).2
  · intro hlong _
    refine ⟨?_, ?_, ?_⟩
    · -- interior positions are imputed with the windowed mean
      intro t ht hvalid
      refine imputeColumn_filled p c (columnRuns p c) c (Extends.refl c) hnd hdisj
        ?_ run hrun hlong t ht hvalid
      intro r' hr' u hu
      have hm := mem_missing_of_mem_columnRuns hr' ((interior_sublist r').subset hu)
      exact ⟨missingIndices_subset_colIndex c hm, lookupCell_of_mem_missing hk hm⟩
    · -- the first position is left to the interpolation pass
      intro a ha
      have haru : a ∈ run := List.mem_of_mem_head? ha
      have hpres : ∀ r' ∈ columnRuns p c, p.max_to_interpolate < r'.length →
          a ∉ (r'.drop 1).dropLast := by
        intro r' hr' _ hamem
        by_cases hne : r' = run
        · rw [hne] at hamem
          exact head_not_mem_interior hrnd ha hamem
        · exact hother a haru r' hr' hne ((interior_sublist r').subset hamem)
      rw [imputeColumn_lookup_eq p _ c a hpres]
      exact (hmissfacts a haru).2
    · -- the last position is left to the interpolation pass
      intro a ha
      have haru : a ∈ run := by
        obtain ⟨h, he⟩ := List.mem_getLast?_eq_getLast ha
        rw [he]
        exact List.getLast_mem h
      have hpres : ∀ r' ∈ columnRuns p c, p.max_to_interpolate < r'.length →
          a ∉ (r'.drop 1).dropLast := by
        intro r' hr' _ hamem
        by_cases hne : r' = run
        · rw [hne] at hamem
          exact getLast_not_mem_interior hrnd ha hamem
        · exact hother a haru r' hr' hne ((interior_sublist r').subset hamem)
      rw [imputeColumn_lookup_eq p _ c a hpres]
      exact (hmissfacts a haru).2

/-- Concrete parameters for the boundary-policy witness: hourly step,
interpolate up to 1, impute up to 10, window of radius 2 stepping by 1. -/
def pW1 : FillParams := ⟨1, 1, 10, 2, 1⟩

/-- Concrete column for the boundary-policy witness: one missing run 1..3. -/
def cW1 : Col := [(0, some 1), (1, none), (2, none), (3, none), (4, some 5)]

/-- Witness for C1 at concrete inputs: the hypotheses hold and the policy
follows. -/
theorem handle_missing_values_boundary_policy_witness :
    (colIndex cW1).Nodup ∧ ([1, 2, 3] : List ℤ) ∈ columnRuns pW1 cW1 ∧
    ((([1, 2, 3] : List ℤ).length ≤ pW1.max_to_interpolate →
        ∀ t ∈ ([1, 2, 3] : List ℤ),
          lookupCell (imputeColumn pW1 cW1 (columnRuns pW1 cW1)) t = some none)
      ∧ (pW1.max_to_interpolate < ([1, 2, 3] : List ℤ).length →
          ([1, 2, 3] : List ℤ).length ≤ pW1.max_to_impute →
        (∀ t ∈ (([1, 2, 3] : List ℤ).drop 1).dropLast, HasValidSample pW1 cW1 t →
          ∃ v, lookupCell (imputeColumn pW1 cW1 (columnRuns pW1 cW1)) t = some (some v))
        ∧ (∀ a ∈ ([1, 2, 3] : List ℤ).head?,
            lookupCell (imputeColumn pW1 cW1 (columnRuns pW1 cW1)) a = some none)
        ∧ (∀ a ∈ ([1, 2, 3] : List ℤ).getLast?,
            lookupCell (imputeColumn pW1 cW1 (columnRuns pW1 cW1)) a = some none))) :=
  ⟨by decide, by decide,
    handle_missing_values_boundary_policy pW1 cW1 (by decide) [1, 2, 3] (by decide)⟩

/-! ### The fill is a no-op on complete series (C8) -/

/-- Normalisation does nothing to a column with no absent cells and no
marker values. -/
theorem normalizeColumn_eq_self {missing : List ℚ} {c : Col}
    (h : ∀ pr ∈ c, pr.2.isSome ∧ ∀ v ∈ missing, pr.2 ≠ some v) :
    normalizeColumn missing c = c := by
  induction c with
  | nil => rfl
  | cons pr rest ih =>
    obtain ⟨hsome, hmark⟩ := h pr (List.mem_cons_self pr rest)
    obtain ⟨v, hv⟩ := Option.isSome_iff_exists.1 hsome
    have hrest := ih (fun q hq => h q (List.mem_cons_of_mem pr hq))
    simp only [normalizeColumn, List.map_cons] at *
    rw [hrest]
    have hvnot : v ∉ missing := fun hm => (hmark v hm) hv
    simp [hv, hvnot]
    rw [← hv]

/-- A column with no absent cell has no missing timestamps. -/
theorem missingIndices_eq_nil {c : Col} (h : ∀ pr ∈ c, pr.2.isSome) :
    missingIndices c = [] := by
  have : c.filter (fun pr => pr.2.isNone) = [] := by
    rw [List.filter_eq_nil_iff]
    intro pr hpr
    simp [Option.isNone_iff_eq_none]
    exact Option.isSome_iff_ne_none.1 (h pr hpr)
  simp [missingIndices, this]

/-- A column with no absent cell has no runs to fill. -/
theorem columnRuns_eq_nil {p : FillParams} {c : Col} (h : ∀ pr ∈ c, pr.2.isSome) :
    columnRuns p c = [] := by
  unfold columnRuns
  rw [missingIndices_eq_nil h]
  rfl

/-- The per-column loop succeeds untouched when no column has missing data. -/
theorem fillLoop_ok (p : FillParams) :
    ∀ (df : DFrame), (∀ nc ∈ df, columnRuns p nc.2 = []) →
      ∀ done, fillLoop p done df = .ok (done ++ df) := by
  intro df
  induction df with
  | nil => intro _ done; simp [fillLoop]
  | cons nc rest ih =>
    intro h done
    obtain ⟨name, c⟩ := nc
    have hruns : columnRuns p c = [] := h (name, c) (List.mem_cons_self _ rest)
    have hrest := ih (fun q hq => h q (List.mem_cons_of_mem _ hq)) (done ++ [(name, c)])
    simp only [fillLoop, hruns, List.length_nil, if_pos rfl]
    rw [hrest]
    simp

/-- Interpolation does nothing to a cell list with no absent cell. -/
theorem interpGo_complete :
    ∀ (cells : List Cell) (prev : Option ℚ), (∀ x ∈ cells, x.isSome) →
      interpGo prev cells = cells := by
  intro cells
  induction cells with
  | nil => intro prev _; simp [interpGo]
  | cons x rest ih =>
    intro prev h
    match x, h x (List.mem_cons_self x rest) with
    | some v, _ =>
      simp only [interpGo]
      rw [ih (some v) (fun y hy => h y (List.mem_cons_of_mem _ hy))]

/-- Interpolation does nothing to a column with no absent cell. -/
theorem interpolateColumn_complete {c : Col} (h : ∀ pr ∈ c, pr.2.isSome) :
    interpolateColumn c = c := by
  unfold interpolateColumn colIndex
  rw [interpGo_complete (c.map (·.2)) none
    (by intro x hx; obtain ⟨pr, hpr, he⟩ := List.mem_map.1 hx; exact he ▸ h pr hpr)]
  exact (List.zip_of_prod rfl rfl).symm

/-- The interpolation pass does nothing to a frame with no absent cell. -/
theorem map_interpolate_eq_self :
    ∀ (df : DFrame), (∀ nc ∈ df, ∀ pr ∈ nc.2, pr.2.isSome) →
      df.map (fun nc => (nc.1, interpolateColumn nc.2)) = df := by
  intro df
  induction df with
  | nil => intro _; rfl
  | cons nc rest ih =>
    intro h
    simp only [List.map_cons]
    rw [interpolateColumn_complete (h nc (List.mem_cons_self nc rest)),
      ih (fun q hq => h q (List.mem_cons_of_mem nc hq))]

/-- C8. Calling the gap fill on a series that is already complete — no cell
absent, no cell equal to a configured missing-value marker — returns the
series unchanged. -/
theorem handle_missing_values_noop (p : FillParams) (missing : List ℚ) (df : DFrame)
    (h : ∀ nc ∈ df, ∀ pr ∈ nc.2, pr.2.isSome ∧ ∀ v ∈ missing, pr.2 ≠ some v) :
    handle_missing_values p missing df = .ok df := by
  have hnorm : df.map (fun nc => (nc.1, normalizeColumn missing nc.2)) = df := by
    induction df with
    | nil => rfl
    | cons nc rest ih =>
      simp only [List.map_cons]
      rw [normalizeColumn_eq_self (h nc (List.mem_cons_self nc rest)),
        ih (fun q hq => h q (List.mem_cons_of_mem nc hq))]
  have hsome : ∀ nc ∈ df, ∀ pr ∈ nc.2, pr.2.isSome :=
    fun nc hnc pr hpr => (h nc hnc pr hpr).1
  have hloop := fillLoop_ok p df
    (fun nc hnc => columnRuns_eq_nil (hsome nc hnc)) []
  unfold handle_missing_values
  simp only [hnorm, hloop, List.nil_append]
  congr 1
  exact map_interpolate_eq_self df hsome

/-- Witness for C8 at a concrete complete series. -/
theorem handle_missing_values_noop_witness :
    (∀ nc ∈ ([("A", [((0:ℤ), some (1:ℚ)), (1, some 2)])] : DFrame), ∀ pr ∈ nc.2,
        pr.2.isSome ∧ ∀ v ∈ ([-9999] : List ℚ), pr.2 ≠ some v)
    ∧ handle_missing_values pW1 [-9999] [("A", [((0:ℤ), some (1:ℚ)), (1, some 2)])]
        = .ok [("A", [((0:ℤ), some (1:ℚ)), (1, some 2)])] :=
  ⟨by decide,
    handle_missing_values_noop pW1 [-9999] [("A", [((0:ℤ), some (1:ℚ)), (1, some 2)])]
      (by decide)⟩

/-! ### Partial mutation visible after the over-long-run exception (C2) -/

/-- Parameters for the failing input of C2: no interpolation tier, impute up
to 3, window of radius 2 stepping by 1. -/
def pC2 : FillParams := ⟨1, 0, 3, 2, 1⟩

/-- Failing input for C2: column A has an imputable run of length 3, column
B a run of length 4 that exceeds the limit. -/
def dfC2 : DFrame :=
  [("A", [(0, some 1), (1, none), (2, none), (3, none), (4, some 2)]),
   ("B", [(0, some 1), (1, none), (2, none), (3, none), (4, none), (5, some 1)])]

/-- The error payload of a fill outcome, if any. -/
def fillErrorInfo : Except (FillError × DFrame) DFrame → Option FillError
  | .error (e, _) => some e
  | .ok _ => none

/-- The DataFrame state the caller observes when the fill raised, if any. -/
def fillErrorState : Except (FillError × DFrame) DFrame → Option DFrame
  | .error (_, d) => some d
  | .ok _ => none

/-- C2. Evaluating the fill at the failing input: the raise does identify the
offending column, the longest run length (4) and the limit (3), but the
DataFrame the caller is left with is not the input — column A was already
imputed (its cell at timestamp 2 is present) before column B was checked,
contradicting the claimed whole-operation abort (and the function's own
docstring, which promises the frame "will be left unchanged"). -/
theorem handle_missing_values_partial_mutation :
    fillErrorInfo (handle_missing_values pC2 [-9999] dfC2) = some ⟨"B", 4, 3⟩
    ∧ fillErrorState (handle_missing_values pC2 [-9999] dfC2) ≠ some dfC2
    ∧ (∀ d ∈ fillErrorState (handle_missing_values pC2 [-9999] dfC2),
        ∀ cA ∈ d.head?, (lookupCell cA.2 2).any Option.isSome) :=
  ⟨by decide, by decide, by decide⟩

/-! ## Admission analyzer: `analyze_noaa_isd_lite_file`

Source (`analyze_noaa_isd_lite_file.py`). A parsed NOAA ISD Lite file is a
list of (timestamp, measurement cells) rows; file I/O and CSV parsing are
out of scope, the analysis starts from the parsed rows. -/

/-- The `file_description` dict returned by `analyze_noaa_isd_lite_file`. -/
structure FileDescription where
  file : String
  total_rows_missing : ℤ
  max_consec_rows_missing : ℕ
deriving DecidableEq

/-- The missing timestamps: the synthetic continuous hourly range of 8760
hours starting at the first observed timestamp is left-merged with the rows,
and a range hour is missing when it matches no row or when its matching row
has a null cell (`df_all_times.isnull().any(axis=1)`); duplicate matches
reproduce the pandas merge row multiplication. -/
def missingTimes (rows : List (ℤ × List Cell)) : List ℤ :=
  let t0 := (rows.map (·.1)).headD 0
  ((List.range 8760).map (fun i : ℕ => t0 + (i : ℤ))).flatMap (fun ts =>
    let hits := rows.filter (fun r => r.1 = ts)
    if hits.isEmpty then [ts]
    else (hits.filter (fun r => r.2.any (·.isNone))).map (fun _ => ts))

/-- The `for step in missing_times_diff` loop: `counter` starts at 1, a step
of exactly one hour extends the current run, a larger step restarts it, any
other step (the leading NaT of `.diff()`, or zero steps from duplicated
timestamps) does nothing. -/
def maxConsecLoop (diffs : List ℤ) : ℕ :=
  (diffs.foldl (fun st d =>
    if d = 1 then (st.1 + 1, max (st.1 + 1) st.2)
    else if 1 < d then (1, st.2) else st) ((1 : ℕ), (1 : ℕ))).2

/-- `_get_max_missing_rows_from_hourly_dataframe`: longest run of
consecutive missing hourly timestamps. -/
def get_max_missing_rows_from_hourly_dataframe (rows : List (ℤ × List Cell)) : ℕ :=
  let missing := missingTimes rows
  if missing.isEmpty then 0
  else maxConsecLoop (List.zipWith (fun a b => a - b) missing.tail missing)

/-- `analyze_noaa_isd_lite_file(file)` on the parsed rows of the file. -/
def analyze_noaa_isd_lite_file (file : String) (rows : List (ℤ × List Cell)) :
    FileDescription :=
  let total : ℤ := 8760 - rows.length
  { file := file
    total_rows_missing := total
    max_consec_rows_missing :=
      if 0 < total then get_max_missing_rows_from_hourly_dataframe rows else 0 }

/-- The three buckets returned by `analyze_noaa_isd_lite_files`. -/
structure AnalysisBuckets where
  good : List FileDescription
  too_many_total_rows_missing : List FileDescription
  too_many_consecutive_rows_missing : List FileDescription
deriving DecidableEq

/-- `analyze_noaa_isd_lite_files(files, max_missing_rows,
max_consecutive_missing_rows)`: analyze each file and bucket it, checking the
total-missing threshold first and the consecutive-missing threshold only when
the first check passes. -/
def analyze_noaa_isd_lite_files (mm : ℤ) (mc : ℕ) :
    List (String × List (ℤ × List Cell)) → AnalysisBuckets
  | [] => ⟨[], [], []⟩
  | (name, rows) :: rest =>
    let d := analyze_noaa_isd_lite_file name rows
    let b := analyze_noaa_isd_lite_files mm mc rest
    if mm < d.total_rows_missing then
      ⟨b.good, d :: b.too_many_total_rows_missing, b.too_many_consecutive_rows_missing⟩
    else if mc < d.max_consec_rows_missing then
      ⟨b.good, b.too_many_total_rows_missing, d :: b.too_many_consecutive_rows_missing⟩
    else
      ⟨d :: b.good, b.too_many_total_rows_missing, b.too_many_consecutive_rows_missing⟩

/-! ## PressureConverter: `_convert_sea_level_pressure_to_station_pressure` -/

/-- `_convert_sea_level_pressure_to_station_pressure(Pa, h_m)`: sea-level
pressure in hPa×10 and elevation in meters to station pressure in Pa
(hPa×10 → inHg → barometric formula → Pa). -/
noncomputable def convert_sea_level_pressure_to_station_pressure (Pa h_m : ℝ) : ℝ :=
  let Pa_inHg := Pa / 10 * 0.029529983071445
  let Pstn_inHg := Pa_inHg * ((288 - 0.0065 * h_m) / 288) ^ (5.2561 : ℝ)
  Pstn_inHg * 3386.389

/-- C9. At elevation 0 the barometric correction factor is exactly 1, so the
conversion of sea-level pressure 10132 tenths-hPa reduces to the hPa-to-Pa
round trip of the input and lands within 1/10 Pa of 101320 Pa. -/
theorem convert_sea_level_pressure_round_trip :
    convert_sea_level_pressure_to_station_pressure 10132 0
      = 10132 / 10 * 0.029529983071445 * 3386.389
    ∧ |convert_sea_level_pressure_to_station_pressure 10132 0 - 101320| < 1 / 10 := by
  have h0 : convert_sea_level_pressure_to_station_pressure 10132 0
      = 10132 / 10 * 0.029529983071445 * 3386.389 := by
    unfold convert_sea_level_pressure_to_station_pressure
    have h1 : ((288 - 0.0065 * (0:ℝ)) / 288) = 1 := by norm_num
    rw [h1, Real.one_rpow]
    ring
  refine ⟨h0, ?_⟩
  rw [h0, abs_sub_lt_iff]
  constructor <;> norm_num

/-- C6. Admission bucketing: a file's description lands in the
too-many-total bucket exactly when its total missing exceeds the threshold
(regardless of its longest run); the consecutive check applies only to files
passing the total check; the three buckets partition the analyzed files. -/
theorem analyze_noaa_isd_lite_files_spec (mm : ℤ) (mc : ℕ)
    (files : List (String × List (ℤ × List Cell))) :
    (analyze_noaa_isd_lite_files mm mc files).too_many_total_rows_missing
      = (files.map (fun f => analyze_noaa_isd_lite_file f.1 f.2)).filter
          (fun d => mm < d.total_rows_missing)
    ∧ (analyze_noaa_isd_lite_files mm mc files).too_many_consecutive_rows_missing
      = (files.map (fun f => analyze_noaa_isd_lite_file f.1 f.2)).filter
          (fun d => ¬ mm < d.total_rows_missing ∧ mc < d.max_consec_rows_missing)
    ∧ (analyze_noaa_isd_lite_files mm mc files).good
      = (files.map (fun f => analyze_noaa_isd_lite_file f.1 f.2)).filter
          (fun d => ¬ mm < d.total_rows_missing ∧ ¬ mc < d.max_consec_rows_missing)
    ∧ (analyze_noaa_isd_lite_files mm mc files).good.length
        + (analyze_noaa_isd_lite_files mm mc files).too_many_total_rows_missing.length
        + (analyze_noaa_isd_lite_files mm mc files).too_many_consecutive_rows_missing.length
      = files.length := by
  induction files with
  | nil => exact ⟨rfl, rfl, rfl, rfl⟩
  | cons f rest ih =>
    obtain ⟨name, rows⟩ := f
    obtain ⟨ih1, ih2, ih3, ih4⟩ := ih
    by_cases h1 : mm < (analyze_noaa_isd_lite_file name rows).total_rows_missing
    · simp only [analyze_noaa_isd_lite_files, if_pos h1, List.map_cons, List.filter_cons]
      have hq2 : ¬ (¬ mm < (analyze_noaa_isd_lite_file name rows).total_rows_missing
          ∧ mc < (analyze_noaa_isd_lite_file name rows).max_consec_rows_missing) :=
        fun hc => hc.1 h1
      have hq3 : ¬ (¬ mm < (analyze_noaa_isd_lite_file name rows).total_rows_missing
          ∧ ¬ mc < (analyze_noaa_isd_lite_file name rows).max_consec_rows_missing) :=
        fun hc => hc.1 h1
      refine ⟨?_, ?_, ?_, ?_⟩
      · rw [ih1, decide_eq_true h1]
        simp
      · rw [ih2, decide_eq_false hq2]
        simp
      · rw [ih3, decide_eq_false hq3]
        simp
      · simp only [List.length_cons]
        omega
    · by_cases h2 : mc < (analyze_noaa_isd_lite_file name rows).max_consec_rows_missing
      · simp only [analyze_noaa_isd_lite_files, if_neg h1, if_pos h2, List.map_cons,
          List.filter_cons]
        have hq2 : (¬ mm < (analyze_noaa_isd_lite_file name rows).total_rows_missing
            ∧ mc < (analyze_noaa_isd_lite_file name rows).max_consec_rows_missing) :=
          ⟨h1, h2⟩
        have hq3 : ¬ (¬ mm < (analyze_noaa_isd_lite_file name rows).total_rows_missing
            ∧ ¬ mc < (analyze_noaa_isd_lite_file name rows).max_consec_rows_missing) :=
          fun hc => hc.2 h2
        refine ⟨?_, ?_, ?_, ?_⟩
        · rw [ih1, decide_eq_false h1]
          simp
        · rw [ih2, decide_eq_true hq2]
          simp
        · rw [ih3, decide_eq_false hq3]
          simp
        · simp only [List.length_cons]
          omega
      · simp only [analyze_noaa_isd_lite_files, if_neg h1, if_neg h2, List.map_cons,
          List.filter_cons]
        have hq2 : ¬ (¬ mm < (analyze_noaa_isd_lite_file name rows).total_rows_missing
            ∧ mc < (analyze_noaa_isd_lite_file name rows).max_consec_rows_missing) :=
          fun hc => h2 hc.2
        have hq3 : (¬ mm < (analyze_noaa_isd_lite_file name rows).total_rows_missing
            ∧ ¬ mc < (analyze_noaa_isd_lite_file name rows).max_consec_rows_missing) :=
          ⟨h1, h2⟩
        refine ⟨?_, ?_, ?_, ?_⟩
        · rw [ih1, decide_eq_false h1]
          simp
        · rw [ih2, decide_eq_false hq2]
          simp
        · rw [ih3, decide_eq_true hq3]
          simp
        · simp only [List.length_cons]
          omega

/-! ### The consecutive-missing counter equals the longest run (C7) -/

/-- Folding the max-of-length over runs from any accumulator. -/
theorem maxRunLength_foldl (rs : List (List ℤ)) :
    ∀ a : ℕ, rs.foldl (fun m r => max m r.length) a
      = max a (rs.foldl (fun m r => max m r.length) 0) := by
  induction rs with
  | nil => intro a; simp
  | cons r rs ih =>
    intro a
    simp only [List.foldl_cons]
    rw [ih (max a r.length), ih (max 0 r.length)]
    omega

/-- The longest run of a cons. -/
theorem maxRunLength_cons (r : List ℤ) (rs : List (List ℤ)) :
    maxRunLength (r :: rs) = max r.length (maxRunLength rs) := by
  simp only [maxRunLength, List.foldl_cons]
  rw [maxRunLength_foldl rs (max 0 r.length)]
  omega

/-- The longest segment of the loop's output is at least as long as the
running segment. -/
theorem goSplit_maxRun_ge (step : ℤ) :
    ∀ (l cur : List ℤ) (prev : Option ℤ), cur ≠ [] →
      cur.length ≤ maxRunLength (goSplit step l cur prev) := by
  intro l
  induction l with
  | nil =>
    intro cur prev hcur
    have h : cur.length > 0 := List.length_pos.2 hcur
    simp only [goSplit, h, if_true]
    rw [maxRunLength_cons]
    omega
  | cons v rest ih =>
    intro cur prev hcur
    match prev with
    | none =>
      simp only [goSplit]
      have := ih (cur ++ [v]) (some v) (by simp)
      simp only [List.length_append, List.length_singleton] at this
      omega
    | some p =>
      by_cases h : v - step ≠ p
      · simp only [goSplit]
        rw [if_pos h, maxRunLength_cons]
        omega
      · simp only [goSplit]
        rw [if_neg h]
        have := ih (cur ++ [v]) (some v) (by simp)
        simp only [List.length_append, List.length_singleton] at this
        omega

/-- The `counter`/`max` loop over the hourly differences computes the longest
segment of the contiguity split, on a strictly increasing working list. -/
theorem loop_vs_goSplit :
    ∀ (xs : List ℤ) (p : ℤ) (cur : List ℤ) (m : ℕ),
      (p :: xs).Chain' (· < ·) → cur ≠ [] → cur.getLast? = some p → cur.length ≤ m →
      ((List.zipWith (fun a b => a - b) xs (p :: xs)).foldl
          (fun st d => if d = 1 then (st.1 + 1, max (st.1 + 1) st.2)
                       else if 1 < d then (1, st.2) else st) (cur.length, m)).2
        = max m (maxRunLength (goSplit 1 xs cur (some p))) := by
  intro xs
  induction xs with
  | nil =>
    intro p cur m _ hcur _ hm
    have h : cur.length > 0 := List.length_pos.2 hcur
    simp only [List.zipWith_nil_left, List.foldl_nil, goSplit, h, if_true]
    rw [maxRunLength_cons]
    simp only [maxRunLength, List.foldl_nil]
    omega
  | cons x xs' ih =>
    intro p cur m hchain hcur hlast hm
    have hpx : p < x := (List.chain'_cons.1 hchain).1
    have htail : (x :: xs').Chain' (· < ·) := (List.chain'_cons.1 hchain).2
    have hcurpos : 0 < cur.length := List.length_pos.2 hcur
    simp only [List.zipWith_cons_cons, List.foldl_cons]
    by_cases hx1 : x - p = 1
    · -- the next element continues the current run
      have hgo : goSplit 1 (x :: xs') cur (some p)
          = goSplit 1 xs' (cur ++ [x]) (some x) := by
        simp only [goSplit]
        rw [if_neg (by omega : ¬ x - 1 ≠ p)]
      rw [if_pos hx1, hgo]
      have hrec := ih x (cur ++ [x]) (max (cur.length + 1) m)
        htail (by simp) (List.getLast?_concat cur)
        (by simp only [List.length_append, List.length_singleton]; omega)
      simp only [List.length_append, List.length_singleton] at hrec
      rw [hrec]
      have hge := goSplit_maxRun_ge 1 xs' (cur ++ [x]) (some x) (by simp)
      simp only [List.length_append, List.length_singleton] at hge
      omega
    · -- the next element starts a new run
      have hx2 : 1 < x - p := by omega
      have hgo : goSplit 1 (x :: xs') cur (some p)
          = cur :: goSplit 1 xs' [x] (some x) := by
        simp only [goSplit]
        rw [if_pos (by omega : x - 1 ≠ p)]
      rw [if_neg hx1, if_pos hx2, hgo, maxRunLength_cons]
      have hrec := ih x [x] m htail (by simp) rfl (by simpa using hm.trans' hcurpos)
      simp only [List.length_singleton] at hrec
      rw [hrec]
      omega

/-- A flatMap whose pieces are empty or the singleton of their seed keeps a
strictly sorted base list strictly sorted. -/
theorem sorted_lt_flatMap {l : List ℤ} (hl : l.Sorted (· < ·)) {f : ℤ → List ℤ}
    (hf : ∀ t, f t = [] ∨ f t = [t]) : (l.flatMap f).Sorted (· < ·) := by
  induction l with
  | nil => simp [List.Sorted]
  | cons t l' ih =>
    have hl' : l'.Sorted (· < ·) := hl.of_cons
    have hlt : ∀ u ∈ l', t < u := List.rel_of_sorted_cons hl
    rw [List.flatMap_cons]
    unfold List.Sorted
    rw [List.pairwise_append]
    refine ⟨?_, ih hl', ?_⟩
    · rcases hf t with h | h <;> simp [h]
    · intro a ha b hb
      have hat : a = t := by
        rcases hf t with h | h
        · rw [h] at ha; exact absurd ha (List.not_mem_nil a)
        · rw [h] at ha; exact List.mem_singleton.1 ha
      obtain ⟨u, hu, hbu⟩ := List.mem_flatMap.1 hb
      have hbu' : b = u := by
        rcases hf u with h | h
        · rw [h] at hbu; exact absurd hbu (List.not_mem_nil b)
        · rw [h] at hbu; exact List.mem_singleton.1 hbu
      rw [hat, hbu']
      exact hlt u hu

/-- On duplicate-free timestamps, at most one row matches a given hour. -/
theorem filter_key_length_le_one {rows : List (ℤ × List Cell)}
    (hnd : (rows.map (·.1)).Nodup) (ts : ℤ) :
    (rows.filter (fun r => r.1 = ts)).length ≤ 1 := by
  induction rows with
  | nil => simp
  | cons r rest ih =>
    have hk : r.1 ∉ rest.map (·.1) := (List.nodup_cons.1 hnd).1
    have ih' := ih (List.nodup_cons.1 hnd).2
    by_cases h : r.1 = ts
    · have hrest : rest.filter (fun r => r.1 = ts) = [] := by
        rw [List.filter_eq_nil_iff]
        intro q hq hqts
        apply hk
        rw [h, ← (by simpa using hqts : q.1 = ts)]
        exact List.mem_map.2 ⟨q, hq, rfl⟩
      simp [List.filter_cons, h, hrest]
    · simpa [List.filter_cons, h] using ih'

/-- A list of length at most one is empty or a singleton. -/
theorem length_le_one_cases {α : Type} {l : List α} (h : l.length ≤ 1) :
    l = [] ∨ ∃ a, l = [a] := by
  match l with
  | [] => exact Or.inl rfl
  | [a] => exact Or.inr ⟨a, rfl⟩
  | a :: b :: t => simp at h

/-- A shifted hour range is strictly sorted. -/
theorem range_map_add_sorted (t0 : ℤ) (n : ℕ) :
    ((List.range n).map (fun i : ℕ => t0 + (i : ℤ))).Sorted (· < ·) := by
  refine List.pairwise_map.mpr ?_
  refine (List.pairwise_lt_range n).imp ?_
  intro a b h
  have : (a : ℤ) < b := by exact_mod_cast h
  omega

/-- The missing-hour list is strictly increasing when the observed
timestamps are duplicate free. -/
theorem missingTimes_sorted {rows : List (ℤ × List Cell)}
    (hnd : (rows.map (·.1)).Nodup) : (missingTimes rows).Sorted (· < ·) := by
  unfold missingTimes
  lift_lets
  extract_lets t0
  apply sorted_lt_flatMap
  · -- the synthetic hourly range is strictly sorted
    exact range_map_add_sorted t0 8760
  · intro ts
    by_cases hempty : ((rows.filter (fun r => r.1 = ts)).isEmpty : Prop)
    · right
      rw [if_pos hempty]
    · rw [if_neg hempty]
      have hle : ((rows.filter (fun r => r.1 = ts)).filter
          (fun r => r.2.any (·.isNone))).length ≤ 1 :=
        le_trans (List.length_filter_le _ _) (filter_key_length_le_one hnd ts)
      rcases length_le_one_cases hle with hcase | ⟨q, hcase⟩
      · left
        rw [hcase]
        rfl
      · right
        rw [hcase]
        rfl

/-- The gap counter of the analyzer computes exactly the longest contiguous
run of the missing-hour list, via the same contiguity logic as the gap-fill
engine's partitioner. -/
theorem get_max_eq_maxRunLength (rows : List (ℤ × List Cell))
    (hnd : (rows.map (·.1)).Nodup) :
    get_max_missing_rows_from_hourly_dataframe rows
      = maxRunLength (split_list_into_contiguous_segments (missingTimes rows) 1) := by
  have hs : (missingTimes rows).Sorted (· < ·) := missingTimes_sorted hnd
  have hnodup : (missingTimes rows).Nodup := hs.imp (fun h => ne_of_lt h)
  have hsd : sortedDedup (missingTimes rows) = missingTimes rows := by
    unfold sortedDedup
    rw [List.dedup_eq_self.2 hnodup]
    exact List.Sorted.insertionSort_eq (hs.imp (fun h => le_of_lt h))
  rcases hmt : missingTimes rows with _ | ⟨x, xs⟩
  · have h1 : get_max_missing_rows_from_hourly_dataframe rows = 0 := by
      unfold get_max_missing_rows_from_hourly_dataframe
      rw [hmt]
      rfl
    rw [h1]
    rfl
  · rw [hmt] at hs hsd
    have hsplit : split_list_into_contiguous_segments (x :: xs) 1
        = goSplit 1 xs [x] (some x) := by
      unfold split_list_into_contiguous_segments
      rw [hsd]
      simp [goSplit]
    have h1 : get_max_missing_rows_from_hourly_dataframe rows
        = maxConsecLoop (List.zipWith (fun a b => a - b) xs (x :: xs)) := by
      unfold get_max_missing_rows_from_hourly_dataframe
      rw [hmt]
      simp
    rw [h1, hsplit]
    unfold maxConsecLoop
    have hloop := loop_vs_goSplit xs x [x] 1 hs.chain' (by simp) rfl (by simp)
    simp only [List.length_singleton] at hloop
    rw [hloop]
    have hge := goSplit_maxRun_ge 1 xs [x] (some x) (by simp)
    simp only [List.length_singleton] at hge
    omega

/-- C7. The per-file analyzer returns `total_rows_missing = 8760 − rows
present` regardless of leap years, and computes the longest consecutive
missing-hours run — against the continuous hourly range starting at the
first observed timestamp — only when `total_rows_missing > 0`, returning 0
otherwise. -/
theorem analyze_noaa_isd_lite_file_spec (file : String)
    (rows : List (ℤ × List Cell)) (hne : rows ≠ [])
    (hnd : (rows.map (·.1)).Nodup) :
    (analyze_noaa_isd_lite_file file rows).total_rows_missing
      = 8760 - rows.length
    ∧ (¬ 0 < (8760 : ℤ) - rows.length →
        (analyze_noaa_isd_lite_file file rows).max_consec_rows_missing = 0)
    ∧ (0 < (8760 : ℤ) - rows.length →
        (analyze_noaa_isd_lite_file file rows).max_consec_rows_missing
          = maxRunLength (split_list_into_contiguous_segments (missingTimes rows) 1)) := by
  refine ⟨rfl, ?_, ?_⟩
  · intro h
    simp only [analyze_noaa_isd_lite_file, if_neg h]
  · intro h
    simp only [analyze_noaa_isd_lite_file, if_pos h]
    exact get_max_eq_maxRunLength rows hnd

/-! ## SeriesAligner: `_map_noaa_df_to_year`

Source (`create_amy_epw_file.py`, lines 250-266): build the complete hourly
range of the target year and left-merge the shifted observation frame onto
it, so that an absent hour becomes an all-NaN row. Timestamps are hours on a
proleptic calendar: hour 0 is Jan 1 00:00 of year 0. -/

/-- `calendar` leap-year rule used by pandas date arithmetic. -/
def isLeapYear (y : ℕ) : Bool :=
  (y % 4 == 0 && y % 100 != 0) || y % 400 == 0

/-- Days in a calendar year. -/
def daysInYear (y : ℕ) : ℕ := if isLeapYear y then 366 else 365

/-- Hours from Jan 1 00:00 to Dec 31 23:00 inclusive: 8760 or 8784. -/
def hoursInYear (y : ℕ) : ℕ := 24 * daysInYear y

/-- Leap years strictly before year `y`. -/
def leapYearsBefore (y : ℕ) : ℕ := (y + 3) / 4 - (y + 99) / 100 + (y + 399) / 400

/-- Days strictly before Jan 1 of year `y`. -/
def daysBeforeYear (y : ℕ) : ℕ := 365 * y + leapYearsBefore y

/-- The hour number of Jan 1 00:00 of year `y`. -/
def yearStartHour (y : ℕ) : ℤ := 24 * (daysBeforeYear y : ℤ)

/-- `pd.date_range(year-01-01 00:00, year-12-31 23:00, freq=H)`. -/
def allTimestamps (y : ℕ) : List ℤ :=
  (List.range (hoursInYear y)).map (fun i : ℕ => yearStartHour y + (i : ℤ))

/-- `_map_noaa_df_to_year(df, year)`: left-merge of the synthetic full-year
hourly range with the observation rows (`pd.merge(all_timestamps, df,
how=left)`); an unmatched hour becomes a row of `w` absent cells, and every
matching row is kept (pandas multiplies the left row per match). -/
def map_noaa_df_to_year (w : ℕ) (df : List (ℤ × List Cell)) (year : ℕ) :
    List (ℤ × List Cell) :=
  (allTimestamps year).flatMap (fun ts =>
    let hits := df.filter (fun r => r.1 = ts)
    if hits.isEmpty then [(ts, List.replicate w none)]
    else hits.map (fun r => (ts, r.2)))

/-- The hour range of a year is strictly sorted. -/
theorem allTimestamps_sorted (y : ℕ) : (allTimestamps y).Sorted (· < ·) :=
  range_map_add_sorted (yearStartHour y) (hoursInYear y)

/-- The hour range of a year has `hoursInYear y` entries. -/
theorem allTimestamps_length (y : ℕ) : (allTimestamps y).length = hoursInYear y := by
  unfold allTimestamps
  rw [List.length_map, List.length_range]

/-- A flatMap whose pieces each carry their seed as only key has the base
list as its key sequence. -/
theorem flatMap_map_fst {l : List ℤ} {f : ℤ → List (ℤ × List Cell)}
    (hf : ∀ ts ∈ l, (f ts).map (·.1) = [ts]) :
    ((l.flatMap f).map (·.1)) = l := by
  induction l with
  | nil => rfl
  | cons t l' ih =>
    rw [List.flatMap_cons, List.map_append,
      hf t (List.mem_cons_self t l'),
      ih (fun ts hts => hf ts (List.mem_cons_of_mem t hts))]
    rfl

/-- On duplicate-free keys, each mapped hour contributes exactly one row,
keyed by itself. -/
theorem map_noaa_piece_fst {df : List (ℤ × List Cell)}
    (hnd : (df.map (·.1)).Nodup) (w : ℕ) (ts : ℤ) :
    ((let hits := df.filter (fun r => r.1 = ts)
      if hits.isEmpty then [(ts, List.replicate w none)]
      else hits.map (fun r => (ts, r.2))).map (·.1)) = [ts] := by
  by_cases hempty : ((df.filter (fun r => r.1 = ts)).isEmpty : Prop)
  · rw [if_pos hempty]
    rfl
  · rw [if_neg hempty]
    have hle := filter_key_length_le_one hnd ts
    rcases length_le_one_cases hle with hcase | ⟨q, hcase⟩
    · exfalso
      apply hempty
      rw [hcase]
      rfl
    · rw [hcase]
      rfl

/-- C4 (amended with pairwise-distinct input timestamps; see the
counterexample for duplicated timestamps). The aligned frame has exactly one
row per hour of the target year — 8760 rows, 8784 for a leap year — in
sorted order without duplicates; an hour absent from the input becomes a row
of all-absent measurement cells instead of being dropped, and every
in-range input row is kept. -/
theorem map_noaa_df_to_year_spec (w : ℕ) (df : List (ℤ × List Cell)) (year : ℕ)
    (hnd : (df.map (·.1)).Nodup) :
    (map_noaa_df_to_year w df year).map (·.1) = allTimestamps year
    ∧ (map_noaa_df_to_year w df year).length = hoursInYear year
    ∧ ((map_noaa_df_to_year w df year).map (·.1)).Sorted (· < ·)
    ∧ (∀ ts ∈ allTimestamps year, ts ∉ df.map (·.1) →
        (ts, List.replicate w none) ∈ map_noaa_df_to_year w df year)
    ∧ (∀ ts row, (ts, row) ∈ df → ts ∈ allTimestamps year →
        (ts, row) ∈ map_noaa_df_to_year w df year) := by
  have hfst : (map_noaa_df_to_year w df year).map (·.1) = allTimestamps year := by
    unfold map_noaa_df_to_year
    exact flatMap_map_fst (fun ts _ => map_noaa_piece_fst hnd w ts)
  refine ⟨hfst, ?_, ?_, ?_, ?_⟩
  · have := congrArg List.length hfst
    rw [List.length_map] at this
    rw [this, allTimestamps_length]
  · rw [hfst]
    exact allTimestamps_sorted year
  · intro ts hts hnotin
    have hempty : df.filter (fun r => r.1 = ts) = [] := by
      rw [List.filter_eq_nil_iff]
      intro r hr hrts
      exact hnotin (List.mem_map.2 ⟨r, hr, by simpa using hrts⟩)
    unfold map_noaa_df_to_year
    refine List.mem_flatMap.2 ⟨ts, hts, ?_⟩
    rw [hempty]
    exact List.mem_singleton_self _
  · intro ts row hmem hts
    unfold map_noaa_df_to_year
    refine List.mem_flatMap.2 ⟨ts, hts, ?_⟩
    have hhit : (ts, row) ∈ df.filter (fun r => r.1 = ts) :=
      List.mem_filter.2 ⟨hmem, by simp⟩
    have hne : ¬ ((df.filter (fun r => r.1 = ts)).isEmpty : Prop) := by
      rw [List.isEmpty_iff]
      intro h0
      rw [h0] at hhit
      exact List.not_mem_nil _ hhit
    rw [if_neg hne]
    exact List.mem_map.2 ⟨(ts, row), hhit, rfl⟩

/-- Rows of a flatMap all of whose pieces are singletons. -/
theorem flatMap_length_all_one {l : List ℤ} {f : ℤ → List (ℤ × List Cell)}
    (hf : ∀ ts ∈ l, (f ts).length = 1) : (l.flatMap f).length = l.length := by
  induction l with
  | nil => rfl
  | cons t l' ih =>
    rw [List.flatMap_cons, List.length_append, hf t (List.mem_cons_self t l'),
      ih (fun ts hts => hf ts (List.mem_cons_of_mem t hts)), List.length_cons]
    omega

/-- Rows of a flatMap with exactly one doubled piece. -/
theorem flatMap_length_one_dup {l : List ℤ} {f : ℤ → List (ℤ × List Cell)}
    {t0 : ℤ} (hnd : l.Nodup) (ht0 : t0 ∈ l) (h2 : (f t0).length = 2)
    (h1 : ∀ ts ∈ l, ts ≠ t0 → (f ts).length = 1) :
    (l.flatMap f).length = l.length + 1 := by
  induction l with
  | nil => exact absurd ht0 (List.not_mem_nil t0)
  | cons t l' ih =>
    rw [List.flatMap_cons, List.length_append, List.length_cons]
    rcases List.mem_cons.1 ht0 with rfl | ht0'
    · have hrest : (l'.flatMap f).length = l'.length :=
        flatMap_length_all_one (fun ts hts =>
          h1 ts (List.mem_cons_of_mem _ hts)
            (fun he => (List.nodup_cons.1 hnd).1 (he ▸ hts)))
      rw [h2, hrest]
      omega
    · have hne : t ≠ t0 := fun he => (List.nodup_cons.1 hnd).1 (he ▸ ht0')
      rw [h1 t (List.mem_cons_self t l') hne,
        ih (List.nodup_cons.1 hnd).2 ht0'
          (fun ts hts hne' => h1 ts (List.mem_cons_of_mem _ hts) hne')]
      omega

/-- C4 counterexample. With an input containing the same timestamp twice,
the left merge multiplies that hour's row, so the aligned frame for the
non-leap year 2021 has 8761 rows, not the claimed exactly-8760. -/
theorem map_noaa_df_to_year_dup_cex :
    (map_noaa_df_to_year 1
        [(yearStartHour 2021, [some 1]), (yearStartHour 2021, [some 2])]
        2021).length = 8761
    ∧ hoursInYear 2021 = 8760 := by
  constructor
  · have ht0 : yearStartHour 2021 ∈ allTimestamps 2021 := by
      unfold allTimestamps
      refine List.mem_map.2 ⟨0, List.mem_range.2 (by decide), by simp⟩
    have hnd : (allTimestamps 2021).Nodup :=
      (allTimestamps_sorted 2021).imp (fun h => ne_of_lt h)
    have h2 :
        (let hits := ([(yearStartHour 2021, [some 1]),
            (yearStartHour 2021, [some 2])] : List (ℤ × List Cell)).filter
              (fun r => r.1 = yearStartHour 2021)
         if hits.isEmpty then [(yearStartHour 2021, List.replicate 1 none)]
         else hits.map (fun r => (yearStartHour 2021, r.2))).length = 2 := by
      decide
    have h1 : ∀ ts ∈ allTimestamps 2021, ts ≠ yearStartHour 2021 →
        (let hits := ([(yearStartHour 2021, [some 1]),
            (yearStartHour 2021, [some 2])] : List (ℤ × List Cell)).filter
              (fun r => r.1 = ts)
         if hits.isEmpty then [(ts, List.replicate 1 none)]
         else hits.map (fun r => (ts, r.2))).length = 1 := by
      intro ts _ hne
      have hempty : (([(yearStartHour 2021, [some 1]),
          (yearStartHour 2021, [some 2])] : List (ℤ × List Cell)).filter
            (fun r => r.1 = ts)) = [] := by
        rw [List.filter_eq_nil_iff]
        intro r hr hrts
        have hr1 : r.1 = yearStartHour 2021 := by
          rcases List.mem_cons.1 hr with rfl | hr'
          · rfl
          · rcases List.mem_cons.1 hr' with rfl | hr''
            · rfl
            · exact absurd hr'' (List.not_mem_nil r)
        apply hne
        rw [← (by simpa using hrts : r.1 = ts), hr1]
      rw [hempty]
      rfl
    unfold map_noaa_df_to_year
    rw [flatMap_length_one_dup hnd ht0 h2 h1, allTimestamps_length]
    decide
  · decide

/-- Witness for C4 at a concrete one-row frame. -/
theorem map_noaa_df_to_year_spec_witness :
    ((([(yearStartHour 2021, [some (1:ℚ)])] : List (ℤ × List Cell)).map (·.1)).Nodup)
    ∧ ((map_noaa_df_to_year 1 [(yearStartHour 2021, [some (1:ℚ)])] 2021).map (·.1)
          = allTimestamps 2021
      ∧ (map_noaa_df_to_year 1 [(yearStartHour 2021, [some (1:ℚ)])] 2021).length
          = hoursInYear 2021
      ∧ ((map_noaa_df_to_year 1 [(yearStartHour 2021, [some (1:ℚ)])] 2021).map
          (·.1)).Sorted (· < ·)
      ∧ (∀ ts ∈ allTimestamps 2021,
          ts ∉ ([(yearStartHour 2021, [some (1:ℚ)])] : List (ℤ × List Cell)).map (·.1) →
          (ts, List.replicate 1 none)
            ∈ map_noaa_df_to_year 1 [(yearStartHour 2021, [some (1:ℚ)])] 2021)
      ∧ (∀ ts row, (ts, row) ∈ ([(yearStartHour 2021, [some (1:ℚ)])] : List (ℤ × List Cell)) →
          ts ∈ allTimestamps 2021 →
          (ts, row) ∈ map_noaa_df_to_year 1 [(yearStartHour 2021, [some (1:ℚ)])] 2021)) :=
  ⟨by decide,
    map_noaa_df_to_year_spec 1 [(yearStartHour 2021, [some (1:ℚ)])] 2021 (by decide)⟩

/-! ## `create_amy_epw_file`: the output-file shortcut (C10)

Source (`create_amy_epw_file.py`, lines 20-160). File fetching, the TMY
header parse and the EPW serialisation are external I/O; the model keeps the
decision structure: the admission pre-check of the raw AMY input (lines
102-105), the output-name computation and existence shortcut (111-117), the
frame construction (119-132 with the duplicated admission check), the gap
fill (134-142) and the EPW range validation (152-155) before the write. The
station-metadata unit conversions of lines 144-150 do not affect these
claims and are not modelled. -/

/-- The TMY header fields used to build the output file name. -/
structure MetMeta where
  country : String
  state : String
  city : String
  station_number : ℕ

/-- The output file name
`country_state_city.station_AMY_year.epw` with spaces dashed. -/
def amy_epw_output_file_name (met : MetMeta) (year : ℕ) : String :=
  (met.country ++ "_" ++ met.state ++ "_" ++ met.city ++ "."
    ++ toString met.station_number ++ "_AMY_" ++ toString year ++ ".epw").replace " " "-"

/-- The `Meteorology._RANGES` bounds table. -/
def epwRanges : List (String × ℚ × ℚ) :=
  [("Tdb", -70, 70), ("Tdew", -70, 70), ("Patm", 31000, 120000),
   ("Wspeed", 0, 40), ("Wdir", 0, 360)]

/-- `Meteorology.validate_against_epw_rules`: one violation per bounded
column whose observed minimum or maximum leaves the allowed range (pandas
min/max ignore NaN; a fully absent column yields no violation). -/
def validate_against_epw_rules (df : DFrame) : List String :=
  epwRanges.filterMap (fun rg =>
    match df.find? (fun nc => nc.1 == rg.1) with
    | none => none
    | some nc =>
      let vals := nc.2.filterMap (fun pr => pr.2)
      match vals.min?, vals.max? with
      | some mn, some mx =>
        if mn < rg.2.1 ∨ rg.2.2 < mx then some (rg.1 ++ " out of allowed range") else none
      | _, _ => none)

/-- One named column extracted from a row table. -/
def colOfRows (j : ℕ) (rows : List (ℤ × List Cell)) : Col :=
  rows.map (fun r => (r.1, r.2.getD j none))

/-- A named DataFrame from a row table. -/
def dframeOfRows (names : List String) (rows : List (ℤ × List Cell)) : DFrame :=
  names.enum.map (fun p => (p.2, colOfRows p.1 rows))

/-- The observation columns substituted into the template record. -/
def epwColumnNames : List String := ["Tdb", "Tdew", "Patm", "Wdir", "Wspeed"]

/-- The fill-validate-write tail of `create_amy_epw_file` (lines 134-160):
reached only when no file with the computed name exists. -/
def create_amy_epw_file_generate (fs : List String) (name : String) (df : DFrame)
    (max_records_to_interpolate max_records_to_impute : ℕ) :
    Except String (String × List String) :=
  match handle_missing_values
      ⟨1, max_records_to_interpolate, max_records_to_impute, 336, 24⟩ [-9999] df with
  | .error e =>
    .error ("The longest set of missing records for " ++ e.1.col ++ " exceeds the max allowed")
  | .ok filled =>
    if validate_against_epw_rules filled ≠ [] then .error "EPW validation failed"
    else .ok (name, fs ++ [name])

/-- `create_amy_epw_file(wmo, year, ...)` against an abstract filesystem
`fs` (the set of existing output paths): admission pre-check of the raw AMY
input first (when `max_missing_amy_rows` is set, the input is read and
analyzed before anything else), then the existing-file shortcut, then frame
construction, the duplicated admission check, fill, validation and write. -/
def create_amy_epw_file (fs : List String) (met : MetMeta) (year : ℕ)
    (amyRaw : List (ℤ × List Cell))
    (max_records_to_interpolate max_records_to_impute : ℕ)
    (max_missing_amy_rows : Option ℤ) : Except String (String × List String) :=
  let precheck : Option String :=
    match max_missing_amy_rows with
    | some m =>
      if m < (analyze_noaa_isd_lite_file "amy_input" amyRaw).total_rows_missing
      then some "File is missing more rows than the maximum allowed" else none
    | none => none
  match precheck with
  | some msg => .error msg
  | none =>
    let name := amy_epw_output_file_name met year
    if name ∈ fs then .ok (name, fs)
    else
      let amy_df := dframeOfRows epwColumnNames (map_noaa_df_to_year 5 amyRaw year)
      match max_missing_amy_rows with
      | some m =>
        if m < (analyze_noaa_isd_lite_file "amy_input" amyRaw).total_rows_missing
        then .error "File is missing more rows than the maximum allowed"
        else create_amy_epw_file_generate fs name amy_df
          max_records_to_interpolate max_records_to_impute
      | none => create_amy_epw_file_generate fs name amy_df
          max_records_to_interpolate max_records_to_impute

/-- C10 (amended: the shortcut holds only once the admission pre-check is
out of the way). If the computed output file already exists and
`max_missing_amy_rows` is unset or the input passes it, the call returns the
existing path with the filesystem unchanged, for every choice of the
interpolation/imputation thresholds — no gap filling, no EPW validation, no
write. As stated the claim fails because with `max_missing_amy_rows` set the
AMY input is read and analyzed before the existence check (see the
counterexample, where the call errors instead of returning the path). -/
theorem create_amy_epw_file_short_circuit (fs : List String) (met : MetMeta)
    (year : ℕ) (amyRaw : List (ℤ × List Cell))
    (mi mp : ℕ) (mmar : Option ℤ)
    (hname : amy_epw_output_file_name met year ∈ fs)
    (hpass : ∀ m, mmar = some m →
      (analyze_noaa_isd_lite_file "amy_input" amyRaw).total_rows_missing ≤ m) :
    create_amy_epw_file fs met year amyRaw mi mp mmar
      = .ok (amy_epw_output_file_name met year, fs) := by
  unfold create_amy_epw_file
  match mmar with
  | none =>
    simp [hname]
  | some m =>
    have h := hpass m rfl
    have hcond : ¬ m < (analyze_noaa_isd_lite_file "amy_input" amyRaw).total_rows_missing := by
      omega
    simp [hcond, hname]

/-- Concrete header metadata for the C10 theorems. -/
def metC10 : MetMeta := ⟨"USA", "WA", "Seattle", 727935⟩

/-- Witness for C10 at a concrete filesystem containing the output file. -/
theorem create_amy_epw_file_short_circuit_witness :
    amy_epw_output_file_name metC10 2018 ∈ [amy_epw_output_file_name metC10 2018]
    ∧ (∀ m, (none : Option ℤ) = some m →
        (analyze_noaa_isd_lite_file "amy_input" ([] : List (ℤ × List Cell))).total_rows_missing ≤ m)
    ∧ create_amy_epw_file [amy_epw_output_file_name metC10 2018] metC10 2018 [] 5 10 none
        = .ok (amy_epw_output_file_name metC10 2018, [amy_epw_output_file_name metC10 2018]) :=
  ⟨List.mem_singleton.2 rfl, fun _ hm => Option.noConfusion hm,
    create_amy_epw_file_short_circuit [amy_epw_output_file_name metC10 2018] metC10 2018 [] 5 10
      none (List.mem_singleton.2 rfl) (fun _ hm => Option.noConfusion hm)⟩

/-- C10 counterexample. With `max_missing_amy_rows` set and a sparse AMY
input, the call reads and analyzes the input and raises before ever reaching
the existence shortcut, even though the output file already exists — so it
does not "return the existing file's path immediately". -/
theorem create_amy_epw_file_precheck_cex :
    amy_epw_output_file_name metC10 2018 ∈ [amy_epw_output_file_name metC10 2018]
    ∧ create_amy_epw_file [amy_epw_output_file_name metC10 2018] metC10 2018 []
        5 10 (some 0)
      = .error "File is missing more rows than the maximum allowed" :=
  ⟨List.mem_singleton.2 rfl, rfl⟩

/-! ### Support lemmas for the leap-year scenario (C5) -/

/-- Normalisation does nothing to a column none of whose present cells is a
marker (absent cells stay absent). -/
theorem normalizeColumn_eq_self' {missing : List ℚ} {c : Col}
    (h : ∀ pr ∈ c, ∀ v, pr.2 = some v → v ∉ missing) :
    normalizeColumn missing c = c := by
  induction c with
  | nil => rfl
  | cons pr rest ih =>
    have hrest := ih (fun q hq => h q (List.mem_cons_of_mem pr hq))
    simp only [normalizeColumn, List.map_cons] at *
    rw [hrest]
    match hpr : pr.2 with
    | none => simp [← hpr]
    | some v =>
      have hv := h pr (List.mem_cons_self pr rest) v hpr
      simp [hv, ← hpr]

/-- On a duplicate-free index, lookup finds the unique row of a timestamp. -/
theorem lookupCell_of_mem {c : Col} (hk : (colIndex c).Nodup) {t : ℤ} {x : Cell}
    (h : (t, x) ∈ c) : lookupCell c t = some x := by
  induction c with
  | nil => exact absurd h (List.not_mem_nil _)
  | cons pr rest ih =>
    have hk' : (colIndex rest).Nodup := (List.nodup_cons.1 hk).2
    have hhead : pr.1 ∉ colIndex rest := (List.nodup_cons.1 hk).1
    rcases List.mem_cons.1 h with rfl | hrest
    · simp [lookupCell, List.find?]
    · have hne : pr.1 ≠ t := by
        intro he
        apply hhead
        rw [he]
        exact List.mem_map.2 ⟨(t, x), hrest, rfl⟩
      have : ¬ (pr.1 == t) := by simpa using hne
      simp only [lookupCell, List.find?, this, Bool.false_eq_true, cond_false]
      exact ih hk' hrest

/-- Lookup at the head row's timestamp returns the head row's cell. -/
theorem lookupCell_head (pr : ℤ × Cell) (rest : Col) :
    lookupCell (pr :: rest) pr.1 = some pr.2 := by
  simp [lookupCell, List.find?]

/-- The imputation loop does not change the index. -/
theorem colIndex_imputeFold (p : FillParams) :
    ∀ (ts : List ℤ) (c : Col),
      colIndex (ts.foldl (fun acc u => setCell acc u (imputeValue p acc u)) c)
        = colIndex c := by
  intro ts
  induction ts with
  | nil => intro c; rfl
  | cons u ts' ih =>
    intro c
    rw [List.foldl_cons, ih, colIndex_setCell]

/-- The run loop does not change the index. -/
theorem colIndex_imputeColumn (p : FillParams) :
    ∀ (runs : List (List ℤ)) (c : Col),
      colIndex (imputeColumn p c runs) = colIndex c := by
  intro runs
  induction runs with
  | nil => intro c; rfl
  | cons r rest ih =>
    intro c
    simp only [imputeColumn, List.foldl_cons]
    by_cases hlen : r.length ≤ p.max_to_interpolate
    · rw [if_pos hlen]
      exact ih c
    · rw [if_neg hlen]
      have := ih (imputeRun p c r)
      simp only [imputeColumn] at this
      rw [this, imputeRun_eq_fold, colIndex_imputeFold]

/-- The column loop on a single column with fillable runs. -/
theorem fillLoop_single (p : FillParams) (name : String) (c : Col)
    (hne : columnRuns p c ≠ [])
    (hok : ¬ p.max_to_impute < maxRunLength (columnRuns p c)) :
    fillLoop p [] [(name, c)] = .ok [(name, imputeColumn p c (columnRuns p c))] := by
  unfold fillLoop
  rw [if_neg (by simpa [List.length_eq_zero] using hne), if_neg hok]
  simp [fillLoop]

/-- The leading absent block is no longer than the column. -/
theorem leadNones_le (l : List Cell) : leadNones l ≤ l.length := by
  induction l with
  | nil => simp [leadNones]
  | cons x r ihr =>
    match x with
    | none => simp only [leadNones, List.length_cons]; omega
    | some v => simp [leadNones]

/-- Interpolation preserves the number of cells. -/
theorem interpGo_length :
    ∀ (n : ℕ) (cells : List Cell) (prev : Option ℚ), cells.length ≤ n →
      (interpGo prev cells).length = cells.length := by
  intro n
  induction n with
  | zero =>
    intro cells prev hle
    rw [List.length_eq_zero.1 (Nat.le_zero.1 hle)]
    simp [interpGo]
  | succ n ih =>
    intro cells prev hle
    match cells with
    | [] => simp [interpGo]
    | some v :: rest =>
      simp only [interpGo, List.length_cons]
      rw [ih rest (some v) (by simpa using hle)]
    | none :: rest =>
      match prev with
      | none =>
        simp only [interpGo, List.length_cons]
        rw [ih rest none (by simpa using hle)]
      | some pv =>
        match hfs : firstSome? rest with
        | none =>
          simp [interpGo, hfs]
        | some nv =>
          have hlead : leadNones (none :: rest) = leadNones rest + 1 := rfl
          have hlead2 : leadNones rest ≤ rest.length := leadNones_le rest
          have hlecons : rest.length ≤ n := by
            simp only [List.length_cons] at hle
            omega
          have hlen2 := ih (rest.drop (leadNones (none :: rest) - 1)) (some pv)
            (by simp only [List.length_drop]; omega)
          simp only [interpGo, hfs, List.length_append, List.length_map,
            List.length_range, List.length_cons, hlen2, List.length_drop]
          omega

/-- With a present running value, interpolation emits only present cells. -/
theorem interpGo_isSome_of_prev :
    ∀ (n : ℕ) (cells : List Cell) (pv : ℚ), cells.length ≤ n →
      ∀ x ∈ interpGo (some pv) cells, x.isSome := by
  intro n
  induction n with
  | zero =>
    intro cells pv hle x hx
    rw [List.length_eq_zero.1 (Nat.le_zero.1 hle)] at hx
    simp [interpGo] at hx
  | succ n ih =>
    intro cells pv hle x hx
    match cells with
    | [] => simp [interpGo] at hx
    | some v :: rest =>
      simp only [interpGo, List.mem_cons] at hx
      rcases hx with rfl | hx'
      · rfl
      · exact ih rest v (by simpa using hle) x hx'
    | none :: rest =>
      match hfs : firstSome? rest with
      | none =>
        simp only [interpGo, hfs] at hx
        rw [List.eq_of_mem_replicate hx]
        rfl
      | some nv =>
        have hlecons : rest.length ≤ n := by
          simp only [List.length_cons] at hle
          omega
        simp only [interpGo, hfs, List.mem_append, List.mem_map] at hx
        rcases hx with ⟨i, _, heq⟩ | hx'
        · rw [← heq]
          rfl
        · exact ih (rest.drop (leadNones (none :: rest) - 1)) pv
            (by simp only [List.length_drop]; omega) x hx'

/-- If the first cell is present, the whole interpolated column is present. -/
theorem interpGo_isSome_of_head (v : ℚ) (rest : List Cell) :
    ∀ x ∈ interpGo none (some v :: rest), x.isSome := by
  intro x hx
  simp only [interpGo, List.mem_cons] at hx
  rcases hx with rfl | hx'
  · rfl
  · exact interpGo_isSome_of_prev rest.length rest v le_rfl x hx'

/-! ## Leap-year template adaptation (C5)

Modelled from the spec: the leap-year branch of `create_amy_epw_file` —
"insert one additional synthetic day (Feb 29) with all measurement columns
absent", re-sort by month/day/hour, and hand the series to the gap-fill
engine "configured so that only the imputation tier applies (interpolation
tier disabled, i.e. maxInterpolateLength = 0)" (spec section 4.4 step 5 and
section 8) — is not present under src/; only its test
(tests/test_create_amy_epw_file.py, test_leap_year) is. The definitions
below follow the spec's words; the gap-fill engine itself is the src
embedding above. Hours of the leap target year are numbered 0..8783; Feb 29
is day index 59, hours 1416..1439. -/

/-- The 24 hours of the synthetic Feb 29. -/
def febHours : List ℤ := (List.range 24).map (fun i : ℕ => (1416 + (i : ℤ)))

/-- Modelled from the spec: the 8760-row template column re-sorted around
one inserted all-absent synthetic day (Feb 29, hours 1416..1439). -/
def insert_leap_day (cells : List Cell) : Col :=
  (List.range 1416).map (fun i : ℕ => (((i : ℤ), cells.getD i none) : ℤ × Cell))
    ++ (List.range 24).map (fun i : ℕ => ((1416 + (i : ℤ), (none : Cell)) : ℤ × Cell))
    ++ (List.range (cells.length - 1416)).map
        (fun i : ℕ => ((1440 + (i : ℤ), cells.getD (1416 + i) none) : ℤ × Cell))

/-- Modelled from the spec: the engine configuration for the synthetic day —
hourly step, interpolation tier disabled, two-week imputation window
stepping one day (in hours). -/
def leapFillParams (maxImpute : ℕ) : FillParams := ⟨1, 0, maxImpute, 336, 24⟩

/-- A strictly monotone image of an hour range is strictly sorted. -/
theorem range_map_sorted_lt (f : ℕ → ℤ) (hf : ∀ a b : ℕ, a < b → f a < f b) (n : ℕ) :
    ((List.range n).map f).Sorted (· < ·) :=
  List.pairwise_map.mpr ((List.pairwise_lt_range n).imp (fun h => hf _ _ h))

/-- The adapted column has 8784 rows. -/
theorem insert_leap_day_length (cells : List Cell) (hlen : cells.length = 8760) :
    (insert_leap_day cells).length = 8784 := by
  unfold insert_leap_day
  simp [List.length_append, List.length_map, List.length_range, hlen]

/-- A complete template cell is present and not a marker. -/
theorem cells_getD_isSome {cells : List Cell}
    (hcomplete : ∀ x ∈ cells, ∃ v, x = some v ∧ v ∉ ([-9999] : List ℚ))
    (i : ℕ) (hi : i < cells.length) :
    ∃ v, cells.getD i none = some v ∧ v ∉ ([-9999] : List ℚ) := by
  rw [List.getD_eq_getElem cells none hi]
  exact hcomplete cells[i] (List.getElem_mem hi)

/-- The missing timestamps of the adapted column are exactly the synthetic
day's 24 hours. -/
theorem insert_leap_day_missing (cells : List Cell) (hlen : cells.length = 8760)
    (hcomplete : ∀ x ∈ cells, ∃ v, x = some v ∧ v ∉ ([-9999] : List ℚ)) :
    missingIndices (insert_leap_day cells) = febHours := by
  unfold insert_leap_day missingIndices
  rw [List.filter_append, List.filter_append]
  have hA : ((List.range 1416).map
      (fun i : ℕ => (((i : ℤ), cells.getD i none) : ℤ × Cell))).filter
        (fun pr => pr.2.isNone) = [] := by
    rw [List.filter_eq_nil_iff]
    intro pr hpr
    obtain ⟨i, hi, rfl⟩ := List.mem_map.1 hpr
    obtain ⟨v, hv, _⟩ := cells_getD_isSome hcomplete i
      (by rw [hlen]; exact Nat.lt_of_lt_of_le (List.mem_range.1 hi) (by omega))
    show ¬ Option.isNone (cells.getD i none) = true
    rw [hv]
    simp
  have hC : ((List.range (cells.length - 1416)).map
      (fun i : ℕ => ((1440 + (i : ℤ), cells.getD (1416 + i) none) : ℤ × Cell))).filter
        (fun pr => pr.2.isNone) = [] := by
    rw [List.filter_eq_nil_iff]
    intro pr hpr
    obtain ⟨i, hi, rfl⟩ := List.mem_map.1 hpr
    have hi' := List.mem_range.1 hi
    obtain ⟨v, hv, _⟩ := cells_getD_isSome hcomplete (1416 + i) (by omega)
    show ¬ Option.isNone (cells.getD (1416 + i) none) = true
    rw [hv]
    simp
  have hB : ((List.range 24).map
      (fun i : ℕ => ((1416 + (i : ℤ), (none : Cell)) : ℤ × Cell))).filter
        (fun pr => pr.2.isNone) = (List.range 24).map
      (fun i : ℕ => ((1416 + (i : ℤ), (none : Cell)) : ℤ × Cell)) := by
    rw [List.filter_eq_self]
    intro pr hpr
    obtain ⟨i, _, rfl⟩ := List.mem_map.1 hpr
    rfl
  rw [hA, hB, hC]
  simp only [List.nil_append, List.append_nil, List.map_map]
  rfl

/-- The adapted column's index is strictly sorted. -/
theorem insert_leap_day_keys_sorted (cells : List Cell)
    (hlen : cells.length = 8760) :
    (colIndex (insert_leap_day cells)).Sorted (· < ·) := by
  unfold insert_leap_day colIndex
  rw [List.map_append, List.map_append, List.map_map, List.map_map, List.map_map]
  have hsA := range_map_sorted_lt (fun i : ℕ => (i : ℤ))
    (by intro a b h; show (a : ℤ) < (b : ℤ); omega) 1416
  have hsB := range_map_sorted_lt (fun i : ℕ => 1416 + (i : ℤ))
    (by intro a b h; show 1416 + (a : ℤ) < 1416 + (b : ℤ); omega) 24
  have hsC := range_map_sorted_lt (fun i : ℕ => 1440 + (i : ℤ))
    (by intro a b h; show 1440 + (a : ℤ) < 1440 + (b : ℤ); omega)
    (cells.length - 1416)
  have hboundA : ∀ a ∈ (List.range 1416).map (fun i : ℕ => (i : ℤ)), a < 1416 := by
    intro a ha
    obtain ⟨i, hi, rfl⟩ := List.mem_map.1 ha
    have := List.mem_range.1 hi
    show (i : ℤ) < 1416
    omega
  have hboundB : ∀ a ∈ (List.range 24).map (fun i : ℕ => 1416 + (i : ℤ)),
      1416 ≤ a ∧ a < 1440 := by
    intro a ha
    obtain ⟨i, hi, rfl⟩ := List.mem_map.1 ha
    have := List.mem_range.1 hi
    show 1416 ≤ 1416 + (i : ℤ) ∧ 1416 + (i : ℤ) < 1440
    omega
  have hboundC : ∀ a ∈ (List.range (cells.length - 1416)).map
      (fun i : ℕ => 1440 + (i : ℤ)), 1440 ≤ a := by
    intro a ha
    obtain ⟨i, hi, rfl⟩ := List.mem_map.1 ha
    show (1440 : ℤ) ≤ 1440 + (i : ℤ)
    omega
  unfold List.Sorted
  rw [List.pairwise_append]
  refine ⟨?_, ?_, ?_⟩
  · rw [List.pairwise_append]
    exact ⟨hsA, hsB, fun a ha b hb =>
      lt_of_lt_of_le (hboundA a ha) (hboundB b hb).1⟩
  · exact hsC
  · intro a ha c hc
    rcases List.mem_append.1 ha with haA | haB
    · exact lt_of_lt_of_le (by have := hboundA a haA; omega : a < (1440 : ℤ))
        (hboundC c hc)
    · exact lt_of_lt_of_le (hboundB a haB).2 (hboundC c hc)

/-- The adapted column's index has no duplicates. -/
theorem insert_leap_day_keys_nodup (cells : List Cell)
    (hlen : cells.length = 8760) :
    (colIndex (insert_leap_day cells)).Nodup :=
  (insert_leap_day_keys_sorted cells hlen).imp (fun h => ne_of_lt h)

/-- A timestamp of the index is mapped to a present lookup result drawn from
an actual row. -/
theorem lookupCell_isSome_of_mem {c : Col} {t : ℤ} (h : t ∈ colIndex c) :
    ∃ x, lookupCell c t = some x ∧ ∃ pr ∈ c, pr.2 = x := by
  induction c with
  | nil => simp [colIndex] at h
  | cons pr rest ih =>
    by_cases hp : pr.1 = t
    · refine ⟨pr.2, ?_, pr, List.mem_cons_self pr rest, rfl⟩
      simp [lookupCell, List.find?, hp]
    · have hmem : t ∈ colIndex rest := by
        simpa [colIndex, hp, Ne.symm hp] using h
      obtain ⟨x, hx, q, hq, hq2⟩ := ih hmem
      refine ⟨x, ?_, q, List.mem_cons_of_mem pr hq, hq2⟩
      have : ¬ (pr.1 == t) := by simpa using hp
      simp only [lookupCell, List.find?, this, Bool.false_eq_true, cond_false]
      exact hx

/-- Template rows of the first part of the adapted column. -/
theorem insert_leap_day_mem_pair (cells : List Cell) {t : ℤ}
    (h0 : 0 ≤ t) (h1 : t < 1416) :
    ((t, cells.getD t.toNat none) : ℤ × Cell) ∈ insert_leap_day cells := by
  unfold insert_leap_day
  refine List.mem_append.2 (Or.inl (List.mem_append.2 (Or.inl ?_)))
  refine List.mem_map.2 ⟨t.toNat, List.mem_range.2 (by omega), ?_⟩
  have hcast : ((t.toNat : ℤ)) = t := Int.toNat_of_nonneg h0
  show (((t.toNat : ℤ)), cells.getD t.toNat none) = (t, cells.getD t.toNat none)
  rw [hcast]

/-- The runs of the adapted column: exactly the synthetic day. -/
theorem insert_leap_day_runs (cells : List Cell) (M : ℕ)
    (hlen : cells.length = 8760)
    (hcomplete : ∀ x ∈ cells, ∃ v, x = some v ∧ v ∉ ([-9999] : List ℚ)) :
    columnRuns (leapFillParams M) (insert_leap_day cells) = [febHours] := by
  unfold columnRuns
  rw [insert_leap_day_missing cells hlen hcomplete]
  show split_list_into_contiguous_segments febHours 1 = [febHours]
  decide

/-- The synthetic day's cells are absent in the adapted column. -/
theorem insert_leap_day_lookup_feb (cells : List Cell)
    (hlen : cells.length = 8760)
    (hcomplete : ∀ x ∈ cells, ∃ v, x = some v ∧ v ∉ ([-9999] : List ℚ)) :
    ∀ t ∈ febHours, lookupCell (insert_leap_day cells) t = some none := by
  intro t ht
  apply lookupCell_of_mem_missing (insert_leap_day_keys_nodup cells hlen)
  rw [insert_leap_day_missing cells hlen hcomplete]
  exact ht

/-- A template cell two weeks before an interior synthetic hour is a valid
imputation window sample. -/
theorem insert_leap_day_sample (cells : List Cell) (M : ℕ)
    (hlen : cells.length = 8760)
    (hcomplete : ∀ x ∈ cells, ∃ v, x = some v ∧ v ∉ ([-9999] : List ℚ))
    {u : ℤ} (hu : u ∈ (febHours.drop 1).dropLast) :
    HasValidSample (leapFillParams M) (insert_leap_day cells) u := by
  have hbound : 1417 ≤ u ∧ u ≤ 1438 :=
    (by decide : ∀ x ∈ (febHours.drop 1).dropLast, 1417 ≤ x ∧ x ≤ 1438) u hu
  have h0 : (0:ℤ) ≤ u - 336 := by omega
  have h1 : u - 336 < 1416 := by omega
  have hpair := insert_leap_day_mem_pair cells h0 h1
  obtain ⟨v, hv, _⟩ := cells_getD_isSome hcomplete (u - 336).toNat (by omega)
  rw [hv] at hpair
  have hmemidx : u - 336 ∈ colIndex (insert_leap_day cells) :=
    List.mem_map.2 ⟨(u - 336, some v), hpair, rfl⟩
  have hlook : lookupCell (insert_leap_day cells) (u - 336) = some (some v) :=
    lookupCell_of_mem (insert_leap_day_keys_nodup cells hlen) hpair
  refine ⟨v, List.mem_filterMap.2 ⟨0, List.mem_range.2 ?_, ?_⟩⟩
  · show 0 < windowSampleCount (leapFillParams M)
    have : windowSampleCount (leapFillParams M) = 29 := rfl
    omega
  · have hw : windowIndex (leapFillParams M) u 0 = u - 336 := by
      show u - 336 + (0 : ℕ) * 24 = u - 336
      omega
    rw [hw, if_pos hmemidx, hlook]

/-- Interpolation preserves the row count. -/
theorem interpolateColumn_length (c : Col) : (interpolateColumn c).length = c.length := by
  unfold interpolateColumn
  rw [List.length_zip, interpGo_length (c.map (·.2)).length (c.map (·.2)) none le_rfl]
  simp [colIndex]

/-- No cell of the adapted column carries the marker value. -/
theorem insert_leap_day_no_marker (cells : List Cell)
    (hlen : cells.length = 8760)
    (hcomplete : ∀ x ∈ cells, ∃ v, x = some v ∧ v ∉ ([-9999] : List ℚ)) :
    ∀ pr ∈ insert_leap_day cells, ∀ v, pr.2 = some v → v ∉ ([-9999] : List ℚ) := by
  intro pr hpr v hv
  unfold insert_leap_day at hpr
  rcases List.mem_append.1 hpr with hAB | hC
  · rcases List.mem_append.1 hAB with hA | hB
    · obtain ⟨i, hi, rfl⟩ := List.mem_map.1 hA
      have hi' : i < cells.length := by
        have := List.mem_range.1 hi; omega
      obtain ⟨w, hw, hwm⟩ := cells_getD_isSome hcomplete i hi'
      have hv' : cells.getD i none = some v := hv
      rw [hw] at hv'
      exact (Option.some.inj hv') ▸ hwm
    · obtain ⟨i, hi, rfl⟩ := List.mem_map.1 hB
      exact absurd hv (by simp)
  · obtain ⟨i, hi, rfl⟩ := List.mem_map.1 hC
    have hi' : 1416 + i < cells.length := by
      have := List.mem_range.1 hi; omega
    obtain ⟨w, hw, hwm⟩ := cells_getD_isSome hcomplete (1416 + i) hi'
    have hv' : cells.getD (1416 + i) none = some v := hv
    rw [hw] at hv'
    exact (Option.some.inj hv') ▸ hwm

/-- Full analysis of the leap-day gap fill: the adapted column has 8784 rows
missing exactly the synthetic day; the engine succeeds, the imputation tier
fills exactly the interior 22 hours, leaves the two edge hours absent, and
the final interpolation pass makes every cell present. -/
theorem leap_fill_analysis (cells : List Cell) (M : ℕ)
    (hlen : cells.length = 8760)
    (hcomplete : ∀ x ∈ cells, ∃ v, x = some v ∧ v ∉ ([-9999] : List ℚ))
    (hM : 24 ≤ M) :
    (insert_leap_day cells).length = 8784
    ∧ missingIndices (insert_leap_day cells) = febHours
    ∧ handle_missing_values (leapFillParams M) [-9999] [("obs", insert_leap_day cells)]
        = .ok [("obs", interpolateColumn
            (imputeColumn (leapFillParams M) (insert_leap_day cells) [febHours]))]
    ∧ (∀ t ∈ (febHours.drop 1).dropLast, ∃ v,
        lookupCell (imputeColumn (leapFillParams M) (insert_leap_day cells) [febHours]) t
          = some (some v))
    ∧ lookupCell (imputeColumn (leapFillParams M) (insert_leap_day cells) [febHours]) 1416
        = some none
    ∧ lookupCell (imputeColumn (leapFillParams M) (insert_leap_day cells) [febHours]) 1439
        = some none
    ∧ (interpolateColumn
        (imputeColumn (leapFillParams M) (insert_leap_day cells) [febHours])).length = 8784
    ∧ ∀ pr ∈ interpolateColumn
        (imputeColumn (leapFillParams M) (insert_leap_day cells) [febHours]), pr.2.isSome := by
  have hnodup := insert_leap_day_keys_nodup cells hlen
  have hmiss := insert_leap_day_missing cells hlen hcomplete
  have hruns := insert_leap_day_runs cells M hlen hcomplete
  have hlook := insert_leap_day_lookup_feb cells hlen hcomplete
  have hlenins := insert_leap_day_length cells hlen
  have hint : ∀ t ∈ (febHours.drop 1).dropLast, t ∈ febHours := by decide
  set ins := insert_leap_day cells with hinsdef
  set p := leapFillParams M with hpdef
  set mid := imputeColumn p ins [febHours] with hmiddef
  -- the engine run
  have hnorm : normalizeColumn [-9999] ins = ins :=
    normalizeColumn_eq_self' (insert_leap_day_no_marker cells hlen hcomplete)
  have hmax : maxRunLength [febHours] = 24 := by decide
  have hfill : fillLoop p [] [("obs", ins)] = .ok [("obs", imputeColumn p ins (columnRuns p ins))] := by
    refine fillLoop_single p "obs" ins ?_ ?_
    · rw [hruns]; simp
    · rw [hruns, hmax]
      show ¬ M < 24
      omega
  rw [hruns] at hfill
  have hrun : handle_missing_values p [-9999] [("obs", ins)]
      = .ok [("obs", interpolateColumn mid)] := by
    unfold handle_missing_values
    simp only [List.map_cons, List.map_nil]
    rw [hnorm, hfill, hmiddef]
    simp only [List.map_cons, List.map_nil]
  -- edge hours untouched by the imputation tier
  have hedgemem : ∀ t ∈ ([1416, 1439] : List ℤ),
      t ∈ febHours ∧ t ∉ (febHours.drop 1).dropLast := by decide
  have hedge : ∀ t ∈ ([1416, 1439] : List ℤ), lookupCell mid t = some none := by
    intro t ht
    obtain ⟨h1, h2⟩ := hedgemem t ht
    rw [hmiddef, imputeColumn_lookup_eq p [febHours] ins t ?_]
    · exact hlook t h1
    · intro r hr _
      rw [List.mem_singleton.1 hr]
      exact h2
  -- interior hours imputed
  have hinterior : ∀ t ∈ (febHours.drop 1).dropLast, ∃ v,
      lookupCell mid t = some (some v) := by
    intro t ht
    refine imputeColumn_filled p ins [febHours] ins (Extends.refl ins) ?_ ?_ ?_
      febHours (List.mem_singleton.2 rfl)
      (by show 0 < febHours.length; decide) t ht
      (insert_leap_day_sample cells M hlen hcomplete ht)
    · intro r hr
      rw [List.mem_singleton.1 hr]
      decide
    · simp
    · intro r hr u hu
      rw [List.mem_singleton.1 hr] at hu
      have huf : u ∈ febHours := hint u hu
      refine ⟨missingIndices_subset_colIndex ins ?_, hlook u huf⟩
      rw [hmiss]
      exact huf
  -- structure of the imputed column
  have hcolmid : colIndex mid = colIndex ins := colIndex_imputeColumn p [febHours] ins
  have hmidlen : mid.length = 8784 := by
    have h1 : (colIndex mid).length = (colIndex ins).length := by rw [hcolmid]
    simpa [colIndex, hlenins] using h1
  obtain ⟨tl, htl⟩ : ∃ tl, ins = ((0:ℤ), cells.getD 0 none) :: tl := by
    rw [hinsdef]
    unfold insert_leap_day
    rw [show (1416:ℕ) = 1415 + 1 from rfl, List.range_succ_eq_map]
    simp only [List.map_cons, List.cons_append, Nat.cast_zero]
    exact ⟨_, rfl⟩
  obtain ⟨v₀, hv₀, _⟩ := cells_getD_isSome hcomplete 0 (by omega)
  have hlook0 : lookupCell ins 0 = some (some v₀) := by
    rw [htl, hv₀]
    exact lookupCell_head ((0:ℤ), some v₀) tl
  have hmid0 : lookupCell mid 0 = some (some v₀) := by
    rw [hmiddef, imputeColumn_lookup_eq p [febHours] ins 0 ?_]
    · exact hlook0
    · intro r hr _
      rw [List.mem_singleton.1 hr]
      decide
  have hnil : mid ≠ [] := by
    intro h
    rw [h] at hmidlen
    simp at hmidlen
  obtain ⟨hd, rest, hmid⟩ := List.exists_cons_of_ne_nil hnil
  have hhd1 : hd.1 = 0 := by
    have h := hcolmid
    rw [hmid, htl] at h
    have h' : (hd.1 :: colIndex rest) = ((0:ℤ) :: colIndex tl) := h
    exact (List.cons_eq_cons.1 h').1
  have hhd2 : hd.2 = some v₀ := by
    have h := hmid0
    rw [hmid, ← hhd1, lookupCell_head] at h
    exact Option.some.inj h
  have hall : ∀ x ∈ interpGo none (mid.map (·.2)), x.isSome := by
    rw [hmid]
    simp only [List.map_cons]
    rw [hhd2]
    exact interpGo_isSome_of_head v₀ (rest.map (·.2))
  have hfinlen : (interpolateColumn mid).length = 8784 := by
    rw [interpolateColumn_length]
    exact hmidlen
  refine ⟨hlenins, hmiss, hrun, hinterior,
    hedge 1416 (by decide), hedge 1439 (by decide), hfinlen, ?_⟩
  intro pr hpr
  rcases pr with ⟨a, b⟩
  unfold interpolateColumn at hpr
  exact hall b (List.of_mem_zip hpr).2

/-- C5 (amended). Aligning a complete 8760-row template against a leap target
year inserts one synthetic all-absent Feb-29 day, giving 8784 rows whose
missing hours are exactly the 24 synthetic ones; the gap-fill call (with the
interpolation tier disabled and the imputation cap at least 24) succeeds and
ends with every cell present — but only the 22 interior synthetic hours are
filled by the imputation tier: the two edge hours are still absent after it
and are filled by the final interpolation pass, so interpolation does
contribute, contrary to the claim's parenthetical. -/
theorem create_amy_epw_file_leap_year_fill (cells : List Cell) (M : ℕ)
    (hlen : cells.length = 8760)
    (hcomplete : ∀ x ∈ cells, ∃ v, x = some v ∧ v ∉ ([-9999] : List ℚ))
    (hM : 24 ≤ M) :
    (insert_leap_day cells).length = 8784
    ∧ missingIndices (insert_leap_day cells) = febHours
    ∧ ∃ mid,
        handle_missing_values (leapFillParams M) [-9999] [("obs", insert_leap_day cells)]
          = .ok [("obs", interpolateColumn mid)]
        ∧ (∀ t ∈ (febHours.drop 1).dropLast, ∃ v, lookupCell mid t = some (some v))
        ∧ lookupCell mid 1416 = some none
        ∧ lookupCell mid 1439 = some none
        ∧ (interpolateColumn mid).length = 8784
        ∧ (∀ pr ∈ interpolateColumn mid, pr.2.isSome) := by
  obtain ⟨h1, h2, h3, h4, h5, h6, h7, h8⟩ := leap_fill_analysis cells M hlen hcomplete hM
  exact ⟨h1, h2, _, h3, h4, h5, h6, h7, h8⟩

/-- Witness for C5 at a constant complete template column. -/
theorem create_amy_epw_file_leap_year_fill_witness :
    ((List.replicate 8760 (some (0:ℚ)) : List Cell).length = 8760
      ∧ (∀ x ∈ (List.replicate 8760 (some (0:ℚ)) : List Cell),
          ∃ v, x = some v ∧ v ∉ ([-9999] : List ℚ))
      ∧ 24 ≤ 24)
    ∧ ((insert_leap_day (List.replicate 8760 (some 0))).length = 8784
      ∧ missingIndices (insert_leap_day (List.replicate 8760 (some 0))) = febHours
      ∧ ∃ mid,
          handle_missing_values (leapFillParams 24) [-9999]
              [("obs", insert_leap_day (List.replicate 8760 (some 0)))]
            = .ok [("obs", interpolateColumn mid)]
          ∧ (∀ t ∈ (febHours.drop 1).dropLast, ∃ v, lookupCell mid t = some (some v))
          ∧ lookupCell mid 1416 = some none
          ∧ lookupCell mid 1439 = some none
          ∧ (interpolateColumn mid).length = 8784
          ∧ (∀ pr ∈ interpolateColumn mid, pr.2.isSome)) :=
  ⟨⟨List.length_replicate 8760 (some 0), fun x hx => ⟨0, List.eq_of_mem_replicate hx, by decide⟩, le_rfl⟩,
    create_amy_epw_file_leap_year_fill (List.replicate 8760 (some 0)) 24
      (List.length_replicate 8760 (some 0))
      (fun x hx => ⟨0, List.eq_of_mem_replicate hx, by decide⟩) le_rfl⟩

/-- Counterexample to C5's parenthetical "interpolation contributes nothing":
on a constant complete template, after the imputation tier the synthetic
day's first hour (1416) is still absent, yet every cell of the engine's
actual output is present — the final interpolation pass filled it. -/
theorem create_amy_epw_file_leap_interp_cex :
    handle_missing_values (leapFillParams 24) [-9999]
        [("obs", insert_leap_day (List.replicate 8760 (some 1)))]
      = .ok [("obs", interpolateColumn (imputeColumn (leapFillParams 24)
          (insert_leap_day (List.replicate 8760 (some 1))) [febHours]))]
    ∧ lookupCell (imputeColumn (leapFillParams 24)
        (insert_leap_day (List.replicate 8760 (some 1))) [febHours]) 1416 = some none
    ∧ ∀ pr ∈ interpolateColumn (imputeColumn (leapFillParams 24)
        (insert_leap_day (List.replicate 8760 (some 1))) [febHours]), pr.2.isSome := by
  obtain ⟨_, _, h3, _, h5, _, _, h8⟩ :=
    leap_fill_analysis (List.replicate 8760 (some 1)) 24 (List.length_replicate 8760 (some 1))
      (fun x hx => ⟨1, List.eq_of_mem_replicate hx, by decide⟩) le_rfl
  exact ⟨h3, h5, h8⟩

/-- Witness for C7 at a concrete one-row file. -/
theorem analyze_noaa_isd_lite_file_spec_witness :
    ([((0:ℤ), [some (1:ℚ)])] : List (ℤ × List Cell)) ≠ []
    ∧ (([((0:ℤ), [some (1:ℚ)])] : List (ℤ × List Cell)).map (·.1)).Nodup
    ∧ ((analyze_noaa_isd_lite_file "f" [((0:ℤ), [some (1:ℚ)])]).total_rows_missing
        = 8760 - ([((0:ℤ), [some (1:ℚ)])] : List (ℤ × List Cell)).length
      ∧ (¬ 0 < (8760 : ℤ) - ([((0:ℤ), [some (1:ℚ)])] : List (ℤ × List Cell)).length →
          (analyze_noaa_isd_lite_file "f" [((0:ℤ), [some (1:ℚ)])]).max_consec_rows_missing = 0)
      ∧ (0 < (8760 : ℤ) - ([((0:ℤ), [some (1:ℚ)])] : List (ℤ × List Cell)).length →
          (analyze_noaa_isd_lite_file "f" [((0:ℤ), [some (1:ℚ)])]).max_consec_rows_missing
            = maxRunLength (split_list_into_contiguous_segments
                (missingTimes [((0:ℤ), [some (1:ℚ)])]) 1))) :=
  ⟨by decide, by decide,
    analyze_noaa_isd_lite_file_spec "f" [((0:ℤ), [some (1:ℚ)])] (by decide) (by decide)⟩

end Diyepw
